import Mathlib

/-!
Shallow embedding of the reconciliation core of the sql-table-sync repository
(`sync.go`, `ping.go`, `config.go`) and proofs about it.

Modelling conventions:
* Dynamic column values (Go `any` as produced by `SliceScan`) are the inductive
  `Value`; SQL NULL and the Go zero value of `any` are both `Value.vNull`.
* A table's stored content is a `DB := List Row`, each row positionally aligned
  with the job's column list.  SQL statement execution (`applyStmt`) gives the
  standard semantics of INSERT / UPDATE-with-WHERE-equality / DELETE on that
  representation; text and binary values compare by content in a WHERE clause,
  matching the SQL engine's coercion.
* A Go `map` is modelled as an association list kept in insertion order, with
  overwrite-on-insert (`mapInsert`);  this deterministic list is the canonical
  representative of Go's unordered map iteration.
* The `ORDER BY primary keys` scan is modelled by sorting with a fixed total
  order on rows: primary-key values first, full row as a tie break.  The order
  itself is an arbitrary fixed collation; the code only relies on the scan
  being deterministic.
* `checksumData` (MD5 of the JSON serialization in the source) is modelled as
  an injective fingerprint `Checksum.digest` of the serialized row list; the
  empty string returned on error paths is `Checksum.empty`.  The source treats
  checksum equality as content equality (a stated design assumption), which
  the injective model makes exact.
* Fallible external calls (driver connect, row scan, JSON marshal, statement
  execution) are modelled by explicit error-injection environments; the Go
  goroutine fan-out is modelled sequentially in target order, a deterministic
  representative of the unordered completion channel.
-/

namespace SqlTableSync

/-- Dynamic value stored in a table cell: SQL NULL / Go nil, an integer,
a text string, or a byte string (Go `[]byte`, content as text). -/
inductive Value where
  | vNull : Value
  | vInt : Int → Value
  | vStr : String → Value
  | vBytes : String → Value
deriving DecidableEq

abbrev Row := List Value

abbrev DB := List Row

/-- Fixed-arity composite key, mirroring Go `type primaryKeyTuple struct{ First, Second, Third any }`;
unset components are the zero value of `any`, i.e. `vNull`. -/
structure primaryKeyTuple where
  First : Value := Value.vNull
  Second : Value := Value.vNull
  Third : Value := Value.vNull
deriving DecidableEq

/-- Conversion applied to key components in `getEntries`:
`if _, ok := val.([]byte); ok { val = string(val.([]byte)) }`. -/
def normalizeKeyVal : Value → Value
  | Value.vBytes s => Value.vStr s
  | v => v

/-- The `switch i { case 0,1,2 }` that fills a tuple component; indices past 2
fall through with no effect. -/
def setPkComponent (t : primaryKeyTuple) (i : Nat) (v : Value) : primaryKeyTuple :=
  match i with
  | 0 => { t with First := v }
  | 1 => { t with Second := v }
  | 2 => { t with Third := v }
  | _ => t

/-- Loop of `getEntries` that extracts the key tuple of one scanned row:
`for i, idx := range t.primaryKeyIndices { val := cols[idx]; ...; switch i ... }`. -/
def pkTupleOfRowAux (row : Row) : Nat → List Nat → primaryKeyTuple → primaryKeyTuple
  | _, [], acc => acc
  | i, idx :: rest, acc =>
    pkTupleOfRowAux row (i + 1) rest
      (setPkComponent acc i (normalizeKeyVal (row.getD idx Value.vNull)))

def pkTupleOfRow (primaryKeyIndices : List Nat) (row : Row) : primaryKeyTuple :=
  pkTupleOfRowAux row 0 primaryKeyIndices {}

/-- Injective code of a list of naturals (used only to build the fixed
collation order for the `ORDER BY` model). -/
def listCode : List Nat → Nat
  | [] => 0
  | n :: rest => Nat.pair n (listCode rest) + 1

def strCode (s : String) : Nat := listCode (s.toList.map Char.toNat)

def intCode (n : Int) : Nat := Nat.pair n.toNat (-n).toNat

def Value.encNat : Value → Nat
  | Value.vNull => Nat.pair 0 0
  | Value.vInt n => Nat.pair 1 (intCode n)
  | Value.vStr s => Nat.pair 2 (strCode s)
  | Value.vBytes s => Nat.pair 3 (strCode s)

def rowCode (r : Row) : Nat := listCode (r.map Value.encNat)

/-- The primary-key projection of a row, in declared key order. -/
def keyRowOf (primaryKeyIndices : List Nat) (r : Row) : Row :=
  primaryKeyIndices.map (fun i => r.getD i Value.vNull)

/-- Fixed total order on rows modelling `ORDER BY <primary keys>`: compare the
primary-key projection first, break ties with the whole row so the scan order
is deterministic (the SQL order among equal keys is unspecified). -/
def rowLe (pk : List Nat) (a b : Row) : Bool :=
  Nat.blt (rowCode (keyRowOf pk a)) (rowCode (keyRowOf pk b)) ||
    (rowCode (keyRowOf pk a) == rowCode (keyRowOf pk b) &&
      Nat.ble (rowCode a) (rowCode b))

/-- Result of the ordered full-table SELECT issued by `getEntries`. -/
def scanRows (pk : List Nat) (db : DB) : List Row :=
  List.insertionSort (fun a b => rowLe pk a b = true) db

/-- Content fingerprint: MD5-hex of the JSON serialization in the source,
modelled as the injective `digest` of the serialized row list.  `empty` is the
empty string `""` returned on error paths (an MD5 hex digest is never empty). -/
inductive Checksum where
  | empty : Checksum
  | digest : List Row → Checksum
deriving DecidableEq

def checksumData (data : List Row) : Checksum := Checksum.digest data

/-- Go `map[primaryKeyTuple][]any` as an insertion-ordered association list. -/
abbrev EntryMap := List (primaryKeyTuple × Row)

def mapLookup (m : EntryMap) (k : primaryKeyTuple) : Option Row :=
  (m.find? (fun p => decide (p.1 = k))).map (fun p => p.2)

def mapInsert (m : EntryMap) (k : primaryKeyTuple) (v : Row) : EntryMap :=
  if (m.find? (fun p => decide (p.1 = k))).isSome then
    m.map (fun p => if p.1 = k then (k, v) else p)
  else m ++ [(k, v)]

def mapErase (m : EntryMap) (k : primaryKeyTuple) : EntryMap :=
  m.filter (fun p => decide (p.1 ≠ k))

/-- The `rows.Next()` loop of `getEntries`: build the ordered entry list and
the entry map keyed by primary-key tuple. -/
def buildEntries (pk : List Nat) (rows : List Row) : List Row × EntryMap :=
  rows.foldl
    (fun acc row => (acc.1 ++ [row], mapInsert acc.2 (pkTupleOfRow pk row) row))
    ([], [])

/-- Go `type table struct { config; primaryKeys; primaryKeyIndices; columns }`
restricted to the fields the reconciliation algorithm reads. -/
structure table where
  columns : List String
  primaryKeys : List String
  primaryKeyIndices : List Nat
deriving DecidableEq

/-- `func (t table) getEntries() ([][]any, map[primaryKeyTuple][]any, error)`,
success path: ordered scan plus keyed map. -/
def getEntries (t : table) (db : DB) : List Row × EntryMap :=
  buildEntries t.primaryKeyIndices (scanRows t.primaryKeyIndices db)

/-- Insertion into the Go map literal `sq.Eq{}` (string-keyed, overwrite). -/
def eqInsert (m : List (String × Value)) (c : String) (v : Value) : List (String × Value) :=
  if (m.find? (fun p => decide (p.1 = c))).isSome then
    m.map (fun p => if p.1 = c then (c, v) else p)
  else m ++ [(c, v)]

/-- Loop of `whereClause`: `for i, idx := range primaryKeyIndices { switch i
{ case 0,1,2: where[columns[idx]] = ... } }`; indices past the third are
silently ignored. -/
def whereClauseAux (key : primaryKeyTuple) (columns : List String) :
    Nat → List Nat → List (String × Value) → List (String × Value)
  | _, [], w => w
  | i, idx :: rest, w =>
    whereClauseAux key columns (i + 1) rest
      (match i with
       | 0 => eqInsert w (columns.getD idx "") key.First
       | 1 => eqInsert w (columns.getD idx "") key.Second
       | 2 => eqInsert w (columns.getD idx "") key.Third
       | _ => w)

def whereClause (key : primaryKeyTuple) (columns : List String)
    (primaryKeyIndices : List Nat) : List (String × Value) :=
  whereClauseAux key columns 0 primaryKeyIndices []

/-- The Go map building `columnIndices[col] = i`: for duplicated names the
later index overwrites, so a lookup yields the last matching position. -/
def lastIdxOf : List String → String → Option Nat
  | [], _ => none
  | c :: rest, s =>
    match lastIdxOf rest s with
    | some i => some (i + 1)
    | none => if c = s then some 0 else none

/-- `func (job JobConfig) getPrimaryKeyIndices() []int`: position of each
primary key in the column list, silently skipping keys absent from it. -/
def getPrimaryKeyIndices (columns primaryKeys : List String) : List Nat :=
  primaryKeys.foldl
    (fun acc pk =>
      match lastIdxOf columns pk with
      | some i => acc ++ [i]
      | none => acc)
    []

/-- A mutating statement built by the reconciliation pass (squirrel builders
reduced to their semantic payload). -/
inductive Stmt where
  | insertStmt : List String → Row → Stmt
  | updateStmt : List (String × Value) → List (String × Value) → Stmt
  | deleteStmt : List (String × Value) → Stmt
deriving DecidableEq

/-- Resolution of a column name to its position in the table (first match;
table column names are unique in SQL). -/
def colIndex : List String → String → Option Nat
  | [], _ => none
  | c :: rest, s => if c = s then some 0 else (colIndex rest s).map (fun i => i + 1)

/-- SQL equality of two stored values in a WHERE clause: text and binary
compare by content (squirrel renders a nil as IS NULL, so NULL matches NULL). -/
def valueMatchesSql (a b : Value) : Bool :=
  decide (normalizeKeyVal a = normalizeKeyVal b)

def rowMatches (columns : List String) (whereEq : List (String × Value)) (row : Row) : Bool :=
  whereEq.all (fun p =>
    match colIndex columns p.1 with
    | some i => valueMatchesSql (row.getD i Value.vNull) p.2
    | none => false)

def applySets (columns : List String) (sets : List (String × Value)) (row : Row) : Row :=
  sets.foldl
    (fun r p =>
      match colIndex columns p.1 with
      | some i => r.set i p.2
      | none => r)
    row

/-- Semantics of one statement on the stored rows. -/
def applyStmt (columns : List String) (db : DB) : Stmt → DB
  | Stmt.insertStmt _ vals => db ++ [vals]
  | Stmt.updateStmt w s =>
    db.map (fun row => if rowMatches columns w row then applySets columns s row else row)
  | Stmt.deleteStmt w => db.filter (fun row => !rowMatches columns w row)

def applyAll (columns : List String) (db : DB) (stmts : List Stmt) : DB :=
  stmts.foldl (applyStmt columns) db

/-- Opaque error value (Go `error`), identified by its message. -/
structure Err where
  msg : String
deriving DecidableEq

/-- Error injection for the external calls one `syncTarget` run performs. -/
structure ExecEnv where
  scanErr : Option Err := none
  checksumErr : Option Err := none
  stmtErr : Stmt → Option Err := fun _ => none

/-- Sequential statement execution: on the first failing `Exec` the pass stops
and reports the error; otherwise each statement is applied in order.  Returns
the final rows, the executed statements, and the error if any. -/
def runStmts (env : ExecEnv) (columns : List String) :
    DB → List Stmt → DB × List Stmt × Option Err
  | db, [] => (db, [], none)
  | db, s :: rest =>
    match env.stmtErr s with
    | some e => (db, [], some e)
    | none =>
      let out := runStmts env columns (applyStmt columns db s) rest
      (out.1, s :: out.2.1, out.2.2)

/-- Loop body of `syncTarget` that builds the SET clauses: every non-primary-key
column is set to the source value at its position (`hasUpdate` is the list
being nonempty). -/
def updateSetsAux (primaryKeys : List String) (val : Row) :
    Nat → List String → List (String × Value)
  | _, [] => []
  | i, c :: rest =>
    if c ∈ primaryKeys then updateSetsAux primaryKeys val (i + 1) rest
    else (c, val.getD i Value.vNull) :: updateSetsAux primaryKeys val (i + 1) rest

def updateSets (t : table) (val : Row) : List (String × Value) :=
  updateSetsAux t.primaryKeys val 0 t.columns

/-- The UPDATE built for one source key, or none when every column is a
primary key (`hasUpdate` stays false). -/
def mkUpdate (t : table) (k : primaryKeyTuple) (v : Row) : Option Stmt :=
  let sets := updateSets t v
  if sets.isEmpty then none
  else some (Stmt.updateStmt (whereClause k t.columns t.primaryKeyIndices) sets)

structure DiffAcc where
  targetMap : EntryMap
  inserts : List Stmt
  updates : List Stmt
deriving DecidableEq

/-- One iteration of the `for key, val := range sourceMap` loop of
`syncTarget`.  The source deletes the key from `targetMap` BEFORE evaluating
`reflect.DeepEqual(val, targetMap[key])`: that lookup then misses and yields
the zero value (a nil slice), and `DeepEqual` of a scanned (never nil) row
against nil is false, so the skip branch can never be taken.  The miss case is
modelled by `| none => false`. -/
def diffStep (t : table) (acc : DiffAcc) (kv : primaryKeyTuple × Row) : DiffAcc :=
  match mapLookup acc.targetMap kv.1 with
  | none =>
    { acc with inserts := acc.inserts ++ [Stmt.insertStmt t.columns kv.2] }
  | some _ =>
    let tm := mapErase acc.targetMap kv.1
    if (match mapLookup tm kv.1 with
        | some tv => decide (kv.2 = tv)
        | none => false) then
      { acc with targetMap := tm }
    else
      { targetMap := tm
        inserts := acc.inserts
        updates := acc.updates ++ (mkUpdate t kv.1 kv.2).toList }

def buildDiff (t : table) (sourceMap targetMap : EntryMap) : DiffAcc :=
  sourceMap.foldl (diffStep t) { targetMap := targetMap, inserts := [], updates := [] }

/-- Observable outcome of one `syncTarget` call: final stored rows, the
mutating statements that were executed, and the returned
`(checksum, synced, error)` triple. -/
structure SyncTargetOut where
  db : DB
  executed : List Stmt
  checksum : Checksum
  synced : Bool
  error : Option Err
deriving DecidableEq

/-- `func (t table) syncTarget(sourceChecksum, sourceMap) (string, bool, error)`. -/
def syncTarget (env : ExecEnv) (t : table) (db : DB)
    (sourceChecksum : Checksum) (sourceMap : EntryMap) : SyncTargetOut :=
  match env.scanErr with
  | some e => ⟨db, [], Checksum.empty, false, some e⟩
  | none =>
    let entries := getEntries t db
    match env.checksumErr with
    | some e => ⟨db, [], Checksum.empty, false, some e⟩
    | none =>
      let targetChecksum := checksumData entries.1
      if sourceChecksum = targetChecksum then
        ⟨db, [], targetChecksum, false, none⟩
      else
        let acc := buildDiff t sourceMap entries.2
        let deletes := acc.targetMap.map
          (fun p => Stmt.deleteStmt (whereClause p.1 t.columns t.primaryKeyIndices))
        let out := runStmts env t.columns db (deletes ++ acc.updates ++ acc.inserts)
        match out.2.2 with
        | some e => ⟨out.1, out.2.1, Checksum.empty, false, some e⟩
        | none => ⟨out.1, out.2.1, targetChecksum, true, none⟩

/-- `TableConfig` restricted to the identity fields the sync path reports. -/
structure TableConfig where
  Label : String := ""
  Table : String := ""
deriving DecidableEq

structure JobConfig where
  Columns : List String
  PrimaryKeys : List String
  Source : TableConfig
  Targets : List TableConfig
deriving DecidableEq

/-- `type SyncResult struct { Target; TargetChecksum; Synced; Error }`. -/
structure SyncResult where
  Target : TableConfig
  TargetChecksum : Checksum := Checksum.empty
  Synced : Bool := false
  Error : Option Err := none
deriving DecidableEq

instance : Inhabited SyncResult := ⟨⟨{}, Checksum.empty, false, none⟩⟩

/-- Error injection for the source-side work of one job. -/
structure SourceEnv where
  connectErr : Option Err := none
  scanErr : Option Err := none
  checksumErr : Option Err := none

/-- One target's connection outcome, execution environment and stored rows. -/
structure TargetState where
  connectErr : Option Err := none
  env : ExecEnv := {}
  db : DB := []

instance : Inhabited TargetState := ⟨{}⟩

structure SyncTargetsOut where
  sourceChecksum : Checksum
  results : List SyncResult
  finalDbs : List DB
  error : Option Err

/-- Body of the per-target goroutine in `syncTargets`: a connect failure is
recorded in the result, otherwise `syncTarget` runs. -/
def runOneTarget (t0 : table) (sourceChecksum : Checksum) (sourceMap : EntryMap)
    (cfg : TableConfig) (st : TargetState) : SyncResult × DB :=
  match st.connectErr with
  | some e => (⟨cfg, Checksum.empty, false, some e⟩, st.db)
  | none =>
    let r := syncTarget st.env t0 st.db sourceChecksum sourceMap
    (⟨cfg, r.checksum, r.synced, r.error⟩, r.db)

/-- `func (job JobConfig) syncTargets() (string, []SyncResult, error)`.  Source
connect, source scan and source checksum failures abort the whole job; the
goroutine fan-out is modelled sequentially in target order (the channel
collection order is unspecified in the source). -/
def syncTargets (job : JobConfig) (senv : SourceEnv) (sourceDb : DB)
    (targets : List TargetState) : SyncTargetsOut :=
  let t0 : table :=
    ⟨job.Columns, job.PrimaryKeys, getPrimaryKeyIndices job.Columns job.PrimaryKeys⟩
  match senv.connectErr with
  | some e => ⟨Checksum.empty, [], targets.map TargetState.db, some e⟩
  | none =>
    match senv.scanErr with
    | some e => ⟨Checksum.empty, [], targets.map TargetState.db, some e⟩
    | none =>
      let entries := getEntries t0 sourceDb
      match senv.checksumErr with
      | some e => ⟨Checksum.empty, [], targets.map TargetState.db, some e⟩
      | none =>
        let outs := (job.Targets.zip targets).map
          (fun p => runOneTarget t0 (checksumData entries.1) entries.2 p.1 p.2)
        ⟨checksumData entries.1, outs.map Prod.fst, outs.map Prod.snd, none⟩

/-- The error `fmt.Errorf("ping operation timed out")`. -/
def timeoutError : Err := ⟨"ping operation timed out"⟩

/-- Discrete-time model of one underlying `config.ping(columns)` call: how
long it takes to deliver its result, and the result (none on success). -/
structure PingEnv where
  checkDuration : Nat
  checkResult : Option Err

/-- `func pingWithTimeout(timeout, config, columns) error`: the select race
between the context timer and the ping goroutine, with a discrete clock.  The
timer fires at `timeout`, the check delivers at `checkDuration`; whichever is
strictly earlier wins (a dead heat is a scheduler race, resolved here to the
timer).  On timeout the in-flight result is abandoned: it does not occur in
the output. -/
def pingWithTimeout (timeout : Nat) (env : PingEnv) : Option Err :=
  if env.checkDuration < timeout then env.checkResult
  else some timeoutError

/-- Row lookup by primary-key tuple directly over stored rows. -/
def dbFind (pk : List Nat) (db : DB) (k : primaryKeyTuple) : Option Row :=
  db.find? (fun r => decide (pkTupleOfRow pk r = k))

/-- Well-formedness a validated job config guarantees for the table shape:
distinct column names, distinct primary keys, at most three of them, and the
key indices as `getPrimaryKeyIndices` computes them. -/
def WFtable (t : table) : Prop :=
  t.columns.Nodup ∧ t.primaryKeys.Nodup ∧ t.primaryKeys.length ≤ 3 ∧
    t.primaryKeyIndices = getPrimaryKeyIndices t.columns t.primaryKeys

/-- Well-formedness of stored content: full-width rows, primary-key uniqueness
(as a SQL primary key enforces), and key components already in canonical text
form (no raw byte strings in key columns). -/
def WFdb (t : table) (db : DB) : Prop :=
  (∀ r ∈ db, r.length = t.columns.length) ∧
    (db.map (pkTupleOfRow t.primaryKeyIndices)).Nodup ∧
    (∀ r ∈ db, ∀ i ∈ t.primaryKeyIndices,
      normalizeKeyVal (r.getD i Value.vNull) = r.getD i Value.vNull)

instance (t : table) : Decidable (WFtable t) := by
  unfold WFtable; exact inferInstance

instance (t : table) (db : DB) : Decidable (WFdb t db) := by
  unfold WFdb; exact inferInstance

theorem listCode_inj : Function.Injective listCode := by
  intro l1
  induction l1 with
  | nil =>
    intro l2 h
    cases l2 with
    | nil => rfl
    | cons b t => simp [listCode] at h
  | cons a t ih =>
    intro l2 h
    cases l2 with
    | nil => simp [listCode] at h
    | cons b t2 =>
      simp only [listCode, Nat.add_right_cancel_iff, Nat.pair_eq_pair] at h
      rw [h.1, ih h.2]

theorem charToNat_inj : Function.Injective Char.toNat := fun _ _ h =>
  Char.ext (UInt32.toNat.inj h)

theorem strCode_inj : Function.Injective strCode := by
  intro s t h
  exact String.toList_inj.mp
    ((List.map_injective_iff.mpr charToNat_inj) (listCode_inj h))

theorem intCode_inj : Function.Injective intCode := by
  intro a b h
  unfold intCode at h
  have h2 := Nat.pair_eq_pair.mp h
  omega

theorem encNat_inj : Function.Injective Value.encNat := by
  intro a b h
  cases a <;> cases b <;>
    simp only [Value.encNat, Nat.pair_eq_pair] at h <;>
    first
      | rfl
      | omega
      | (exact congrArg Value.vInt (intCode_inj h.2))
      | (exact congrArg Value.vStr (strCode_inj h.2))
      | (exact congrArg Value.vBytes (strCode_inj h.2))

theorem rowCode_inj : Function.Injective rowCode := by
  intro a b h
  exact (List.map_injective_iff.mpr encNat_inj) (listCode_inj h)

theorem rowLe_total (pk : List Nat) (a b : Row) : rowLe pk a b = true ∨ rowLe pk b a = true := by
  unfold rowLe
  simp only [Bool.or_eq_true, Bool.and_eq_true, Nat.blt_eq, Nat.ble_eq, beq_iff_eq]
  omega

theorem rowLe_trans (pk : List Nat) (a b c : Row) :
    rowLe pk a b = true → rowLe pk b c = true → rowLe pk a c = true := by
  unfold rowLe
  simp only [Bool.or_eq_true, Bool.and_eq_true, Nat.blt_eq, Nat.ble_eq, beq_iff_eq]
  omega

theorem rowLe_antisymm (pk : List Nat) (a b : Row) :
    rowLe pk a b = true → rowLe pk b a = true → a = b := by
  unfold rowLe
  simp only [Bool.or_eq_true, Bool.and_eq_true, Nat.blt_eq, Nat.ble_eq, beq_iff_eq]
  intro h1 h2
  exact rowCode_inj (by omega)

theorem scanRows_perm (pk : List Nat) (db : DB) : List.Perm (scanRows pk db) db :=
  List.perm_insertionSort _ db

theorem scanRows_congr (pk : List Nat) {l1 l2 : DB} (h : List.Perm l1 l2) :
    scanRows pk l1 = scanRows pk l2 := by
  haveI : IsTotal Row (fun a b => rowLe pk a b = true) := ⟨rowLe_total pk⟩
  haveI : IsTrans Row (fun a b => rowLe pk a b = true) := ⟨rowLe_trans pk⟩
  haveI : IsAntisymm Row (fun a b => rowLe pk a b = true) := ⟨rowLe_antisymm pk⟩
  exact List.eq_of_perm_of_sorted
    (((List.perm_insertionSort _ l1).trans h).trans (List.perm_insertionSort _ l2).symm)
    (List.sorted_insertionSort _ l1) (List.sorted_insertionSort _ l2)

theorem mapLookup_nil (k : primaryKeyTuple) : mapLookup [] k = none := rfl

theorem mapLookup_cons (p : primaryKeyTuple × Row) (m : EntryMap) (k : primaryKeyTuple) :
    mapLookup (p :: m) k = if p.1 = k then some p.2 else mapLookup m k := by
  unfold mapLookup
  by_cases h : p.1 = k <;> simp [List.find?_cons, h]

theorem mapLookup_eq_none_iff (m : EntryMap) (k : primaryKeyTuple) :
    mapLookup m k = none ↔ k ∉ m.map Prod.fst := by
  induction m with
  | nil => simp [mapLookup_nil]
  | cons p rest ih =>
    rw [mapLookup_cons, List.map_cons]
    by_cases h : p.1 = k
    · rw [if_pos h]
      exact iff_of_false (by simp) (by intro hx; exact hx (List.mem_cons.mpr (Or.inl h.symm)))
    · rw [if_neg h, ih]
      constructor
      · intro hx hy
        rcases List.mem_cons.mp hy with hy | hy
        · exact h hy.symm
        · exact hx hy
      · intro hx hy
        exact hx (List.mem_cons.mpr (Or.inr hy))

theorem mapLookup_isSome_iff (m : EntryMap) (k : primaryKeyTuple) :
    (mapLookup m k).isSome ↔ k ∈ m.map Prod.fst := by
  rw [Option.isSome_iff_ne_none]
  have h := not_iff_not.mpr (mapLookup_eq_none_iff m k)
  rwa [not_not] at h

theorem mapErase_cons (p : primaryKeyTuple × Row) (m : EntryMap) (k : primaryKeyTuple) :
    mapErase (p :: m) k = if p.1 = k then mapErase m k else p :: mapErase m k := by
  unfold mapErase
  by_cases h : p.1 = k <;> simp [h]

theorem mapLookup_mapErase_self (m : EntryMap) (k : primaryKeyTuple) :
    mapLookup (mapErase m k) k = none := by
  induction m with
  | nil => rfl
  | cons p rest ih =>
    rw [mapErase_cons]
    by_cases h : p.1 = k <;> simp [h, mapLookup_cons, ih]

theorem mapLookup_mapErase_ne (m : EntryMap) {k k2 : primaryKeyTuple} (h : k2 ≠ k) :
    mapLookup (mapErase m k) k2 = mapLookup m k2 := by
  induction m with
  | nil => rfl
  | cons p rest ih =>
    by_cases hp : p.1 = k
    · rw [mapErase_cons, if_pos hp, ih, mapLookup_cons,
        if_neg (fun hk => h (by rw [← hk]; exact hp))]
    · rw [mapErase_cons, if_neg hp, mapLookup_cons, mapLookup_cons, ih]

theorem mapInsert_of_fresh (m : EntryMap) (k : primaryKeyTuple) (v : Row)
    (h : k ∉ m.map Prod.fst) : mapInsert m k v = m ++ [(k, v)] := by
  have hnone : m.find? (fun p => decide (p.1 = k)) = none := by
    rw [List.find?_eq_none]
    intro p hp hdec
    simp only [decide_eq_true_eq] at hdec
    exact h (hdec ▸ List.mem_map_of_mem Prod.fst hp)
  unfold mapInsert
  rw [hnone]
  simp

theorem buildEntries_go (pk : List Nat) (rows : List Row) :
    ∀ (l0 : List Row) (m0 : EntryMap),
      (∀ r ∈ rows, pkTupleOfRow pk r ∉ m0.map Prod.fst) →
      (rows.map (pkTupleOfRow pk)).Nodup →
      rows.foldl
        (fun acc row => (acc.1 ++ [row], mapInsert acc.2 (pkTupleOfRow pk row) row))
        (l0, m0)
        = (l0 ++ rows, m0 ++ rows.map (fun r => (pkTupleOfRow pk r, r))) := by
  induction rows with
  | nil => intro l0 m0 _ _; simp
  | cons r rest ih =>
    intro l0 m0 hfresh hnd
    simp only [List.foldl_cons]
    rw [mapInsert_of_fresh m0 _ r (hfresh r (List.mem_cons_self r rest))]
    rw [ih (l0 ++ [r]) (m0 ++ [(pkTupleOfRow pk r, r)])]
    · simp
    · intro x hx
      rw [List.map_append, List.mem_append]
      rintro (h1 | h2)
      · exact hfresh x (List.mem_cons_of_mem r hx) h1
      · simp only [List.map_cons, List.map_nil, List.mem_singleton] at h2
        simp only [List.map_cons, List.nodup_cons] at hnd
        exact hnd.1 (h2 ▸ List.mem_map_of_mem (pkTupleOfRow pk) hx)
    · simp only [List.map_cons, List.nodup_cons] at hnd
      exact hnd.2

theorem buildEntries_fst_go (pk : List Nat) (rows : List Row) :
    ∀ (l0 : List Row) (m0 : EntryMap),
      (rows.foldl
        (fun acc row => (acc.1 ++ [row], mapInsert acc.2 (pkTupleOfRow pk row) row))
        (l0, m0)).1 = l0 ++ rows := by
  induction rows with
  | nil => intro l0 m0; simp
  | cons r rest ih =>
    intro l0 m0
    simp only [List.foldl_cons]
    rw [ih]
    simp

theorem buildEntries_fst (pk : List Nat) (rows : List Row) :
    (buildEntries pk rows).1 = rows := by
  unfold buildEntries
  rw [buildEntries_fst_go]
  simp

theorem buildEntries_snd (pk : List Nat) (rows : List Row)
    (hnd : (rows.map (pkTupleOfRow pk)).Nodup) :
    (buildEntries pk rows).2 = rows.map (fun r => (pkTupleOfRow pk r, r)) := by
  unfold buildEntries
  rw [buildEntries_go pk rows [] [] (by simp) hnd]
  simp

theorem getEntries_fst (t : table) (db : DB) :
    (getEntries t db).1 = scanRows t.primaryKeyIndices db := by
  unfold getEntries
  exact buildEntries_fst _ _

theorem scan_keys_nodup {t : table} {db : DB}
    (hnd : (db.map (pkTupleOfRow t.primaryKeyIndices)).Nodup) :
    ((scanRows t.primaryKeyIndices db).map (pkTupleOfRow t.primaryKeyIndices)).Nodup :=
  hnd.perm ((scanRows_perm t.primaryKeyIndices db).map (pkTupleOfRow t.primaryKeyIndices)).symm

theorem getEntries_snd (t : table) (db : DB)
    (hnd : (db.map (pkTupleOfRow t.primaryKeyIndices)).Nodup) :
    (getEntries t db).2 =
      (scanRows t.primaryKeyIndices db).map (fun r => (pkTupleOfRow t.primaryKeyIndices r, r)) := by
  unfold getEntries
  exact buildEntries_snd _ _ (scan_keys_nodup hnd)

theorem mapLookup_map_pair (pk : List Nat) (rows : List Row) (k : primaryKeyTuple) :
    mapLookup (rows.map (fun r => (pkTupleOfRow pk r, r))) k
      = rows.find? (fun r => decide (pkTupleOfRow pk r = k)) := by
  induction rows with
  | nil => rfl
  | cons r rest ih =>
    rw [List.map_cons, mapLookup_cons]
    by_cases h : pkTupleOfRow pk r = k <;> simp [h, ih]

theorem find?_eq_head?_filter (p : Row → Bool) (l : List Row) :
    l.find? p = (l.filter p).head? := by
  induction l with
  | nil => rfl
  | cons r rest ih =>
    by_cases h : p r
    · rw [List.find?_cons_of_pos _ h, List.filter_cons_of_pos h, List.head?_cons]
    · rw [List.find?_cons_of_neg _ h, List.filter_cons_of_neg h, ih]

theorem find?_congr_perm {p : Row → Bool} {l1 l2 : List Row} (h : List.Perm l1 l2)
    (hu : (l2.filter p).length ≤ 1) : l1.find? p = l2.find? p := by
  rw [find?_eq_head?_filter, find?_eq_head?_filter]
  have hperm : List.Perm (l1.filter p) (l2.filter p) := h.filter p
  match hl : l2.filter p with
  | [] => rw [hl] at hperm; rw [hperm.eq_nil]
  | [x] => rw [hl] at hperm; rw [hperm.eq_singleton]
  | x :: y :: rest => rw [hl] at hu; simp at hu

theorem filter_key_len_le_one (pk : List Nat) {db : DB}
    (hnd : (db.map (pkTupleOfRow pk)).Nodup) (k : primaryKeyTuple) :
    (db.filter (fun r => decide (pkTupleOfRow pk r = k))).length ≤ 1 := by
  induction db with
  | nil => simp
  | cons r rest ih =>
    simp only [List.map_cons, List.nodup_cons] at hnd
    by_cases h : pkTupleOfRow pk r = k
    · rw [List.filter_cons_of_pos (by simp [h])]
      have : rest.filter (fun r => decide (pkTupleOfRow pk r = k)) = [] := by
        rw [List.filter_eq_nil_iff]
        intro x hx
        simp only [decide_eq_true_eq]
        intro hk
        exact hnd.1 (h ▸ hk ▸ List.mem_map_of_mem (pkTupleOfRow pk) hx)
      simp [this]
    · rw [List.filter_cons_of_neg (by simp [h])]
      exact ih hnd.2

theorem dbFind_perm (pk : List Nat) {l1 l2 : DB} (h : List.Perm l1 l2)
    (hnd : (l2.map (pkTupleOfRow pk)).Nodup) (k : primaryKeyTuple) :
    dbFind pk l1 k = dbFind pk l2 k :=
  find?_congr_perm h (filter_key_len_le_one pk hnd k)

theorem dbFind_self (pk : List Nat) {db : DB}
    (hnd : (db.map (pkTupleOfRow pk)).Nodup) {r : Row} (hr : r ∈ db) :
    dbFind pk db (pkTupleOfRow pk r) = some r := by
  induction db with
  | nil => cases hr
  | cons x rest ih =>
    simp only [List.map_cons, List.nodup_cons] at hnd
    rcases List.mem_cons.mp hr with h | h
    · subst h
      unfold dbFind
      rw [List.find?_cons_of_pos _ (by simp)]
    · unfold dbFind
      rw [List.find?_cons_of_neg]
      · exact ih hnd.2 h
      · simp only [decide_eq_true_eq]
        intro hk
        exact hnd.1 (hk ▸ List.mem_map_of_mem (pkTupleOfRow pk) h)

theorem lastIdxOf_spec {cols : List String} {c : String} :
    ∀ {i : Nat}, lastIdxOf cols c = some i → i < cols.length ∧ cols.getD i "" = c := by
  induction cols with
  | nil => intro i h; cases h
  | cons x rest ih =>
    intro i h
    unfold lastIdxOf at h
    cases hr : lastIdxOf rest c with
    | some j =>
      rw [hr] at h
      cases h
      have := ih hr
      exact ⟨by simpa using Nat.succ_lt_succ this.1, by simpa using this.2⟩
    | none =>
      rw [hr] at h
      by_cases hx : x = c
      · rw [if_pos hx] at h
        cases h
        exact ⟨Nat.succ_pos _, hx⟩
      · rw [if_neg hx] at h
        cases h

theorem lastIdxOf_eq_none_iff {cols : List String} {c : String} :
    lastIdxOf cols c = none ↔ c ∉ cols := by
  induction cols with
  | nil => simp [lastIdxOf]
  | cons x rest ih =>
    unfold lastIdxOf
    cases hr : lastIdxOf rest c with
    | some j =>
      simp only [reduceCtorEq, false_iff, not_not]
      have hc := (not_iff_not.mpr ih).mp (by simp [hr])
      rw [not_not] at hc
      exact List.mem_cons_of_mem x hc
    | none =>
      by_cases hx : x = c
      · simp [if_pos hx, hx]
      · simp only [if_neg hx, List.mem_cons]
        constructor
        · intro _ hc
          rcases hc with hc | hc
          · exact hx hc.symm
          · exact ih.mp hr hc
        · intro _; trivial

theorem lastIdxOf_getD_self {cols : List String} (hnd : cols.Nodup) :
    ∀ {i : Nat}, i < cols.length → lastIdxOf cols (cols.getD i "") = some i := by
  induction cols with
  | nil => intro i h; cases h
  | cons x rest ih =>
    intro i hi
    simp only [List.nodup_cons] at hnd
    match i with
    | 0 =>
      have hx : lastIdxOf rest x = none := lastIdxOf_eq_none_iff.mpr hnd.1
      simp only [List.getD_cons_zero]
      unfold lastIdxOf
      rw [hx, if_pos rfl]
    | i + 1 =>
      have hi2 : i < rest.length := Nat.lt_of_succ_lt_succ hi
      simp only [List.getD_cons_succ]
      unfold lastIdxOf
      rw [ih hnd.2 hi2]

theorem gpk_eq_filterMap (cols pks : List String) :
    getPrimaryKeyIndices cols pks = pks.filterMap (lastIdxOf cols) := by
  unfold getPrimaryKeyIndices
  suffices h : ∀ acc : List Nat,
      pks.foldl
        (fun acc pk =>
          match lastIdxOf cols pk with
          | some i => acc ++ [i]
          | none => acc)
        acc = acc ++ pks.filterMap (lastIdxOf cols) by
    simpa using h []
  induction pks with
  | nil => intro acc; simp
  | cons pk rest ih =>
    intro acc
    simp only [List.foldl_cons, List.filterMap_cons]
    cases hr : lastIdxOf cols pk with
    | some i => rw [ih]; simp
    | none => rw [ih]

theorem mem_gpk_lt {cols pks : List String} {i : Nat}
    (h : i ∈ getPrimaryKeyIndices cols pks) : i < cols.length := by
  rw [gpk_eq_filterMap] at h
  rcases List.mem_filterMap.mp h with ⟨pk, _, hlast⟩
  exact (lastIdxOf_spec hlast).1

theorem mem_gpk_name {cols pks : List String} {i : Nat}
    (h : i ∈ getPrimaryKeyIndices cols pks) : cols.getD i "" ∈ pks := by
  rw [gpk_eq_filterMap] at h
  rcases List.mem_filterMap.mp h with ⟨pk, hpk, hlast⟩
  rw [(lastIdxOf_spec hlast).2]
  exact hpk

theorem mem_gpk_iff {cols pks : List String} (hnd : cols.Nodup) {i : Nat}
    (hi : i < cols.length) :
    i ∈ getPrimaryKeyIndices cols pks ↔ cols.getD i "" ∈ pks := by
  constructor
  · exact mem_gpk_name
  · intro h
    rw [gpk_eq_filterMap]
    exact List.mem_filterMap.mpr ⟨cols.getD i "", h, lastIdxOf_getD_self hnd hi⟩

theorem gpk_nodup {cols pks : List String} (hnd : pks.Nodup) :
    (getPrimaryKeyIndices cols pks).Nodup := by
  rw [gpk_eq_filterMap]
  refine List.Nodup.filterMap ?_ hnd
  intro a b i ha hb
  simp only [Option.mem_def] at ha hb
  have h1 := (lastIdxOf_spec ha).2
  have h2 := (lastIdxOf_spec hb).2
  rw [← h1, ← h2]

theorem gpk_length_le (cols pks : List String) :
    (getPrimaryKeyIndices cols pks).length ≤ pks.length := by
  rw [gpk_eq_filterMap]
  exact List.length_filterMap_le _ _

theorem nodup_getD_inj {cols : List String} (hnd : cols.Nodup) {i j : Nat}
    (hi : i < cols.length) (hj : j < cols.length)
    (h : cols.getD i "" = cols.getD j "") : i = j := by
  have h1 := lastIdxOf_getD_self hnd hi
  have h2 := lastIdxOf_getD_self hnd hj
  rw [h] at h1
  rw [h1] at h2
  exact (Option.some.injEq _ _).mp h2

theorem colIndex_spec {cols : List String} {c : String} :
    ∀ {i : Nat}, colIndex cols c = some i → i < cols.length ∧ cols.getD i "" = c := by
  induction cols with
  | nil => intro i h; cases h
  | cons x rest ih =>
    intro i h
    unfold colIndex at h
    by_cases hx : x = c
    · rw [if_pos hx] at h
      cases h
      exact ⟨Nat.succ_pos _, hx⟩
    · rw [if_neg hx] at h
      cases hr : colIndex rest c with
      | some j =>
        rw [hr] at h
        simp only [Option.map_some'] at h
        cases h
        have := ih hr
        exact ⟨Nat.succ_lt_succ this.1, by simpa using this.2⟩
      | none => rw [hr] at h; cases h

theorem colIndex_getD_self {cols : List String} (hnd : cols.Nodup) :
    ∀ {i : Nat}, i < cols.length → colIndex cols (cols.getD i "") = some i := by
  induction cols with
  | nil => intro i h; cases h
  | cons x rest ih =>
    intro i hi
    simp only [List.nodup_cons] at hnd
    match i with
    | 0 =>
      simp only [List.getD_cons_zero]
      unfold colIndex
      rw [if_pos rfl]
    | i + 1 =>
      have hi2 : i < rest.length := Nat.lt_of_succ_lt_succ hi
      have hmem : rest.getD i "" ∈ rest := by
        have := List.getD_eq_getElem?_getD rest i ""
        rw [List.getElem?_eq_getElem hi2] at this
        rw [this]
        exact List.getElem_mem hi2
      simp only [List.getD_cons_succ]
      unfold colIndex
      rw [if_neg (fun hx => hnd.1 (by rw [hx]; exact hmem)), ih hnd.2 hi2]
      rfl

theorem colIndex_eq_none_iff {cols : List String} {c : String} :
    colIndex cols c = none ↔ c ∉ cols := by
  induction cols with
  | nil => simp [colIndex]
  | cons x rest ih =>
    unfold colIndex
    by_cases hx : x = c
    · simp [if_pos hx, hx]
    · simp only [if_neg hx, List.mem_cons]
      cases hr : colIndex rest c with
      | some j =>
        simp only [Option.map_some', reduceCtorEq, false_iff, not_not]
        have hc := (not_iff_not.mpr ih).mp (by simp [hr])
        rw [not_not] at hc
        exact Or.inr hc
      | none =>
        simp only [Option.map_none', true_iff]
        intro hc
        rcases hc with hc | hc
        · exact hx hc.symm
        · exact ih.mp hr hc

theorem normalize_idem (v : Value) :
    normalizeKeyVal (normalizeKeyVal v) = normalizeKeyVal v := by
  cases v <;> rfl

theorem pkTupleOfRow_nil (r : Row) : pkTupleOfRow [] r = {} := rfl

theorem pkTupleOfRow_one (a : Nat) (r : Row) :
    pkTupleOfRow [a] r =
      ⟨normalizeKeyVal (r.getD a Value.vNull), Value.vNull, Value.vNull⟩ := rfl

theorem pkTupleOfRow_two (a b : Nat) (r : Row) :
    pkTupleOfRow [a, b] r =
      ⟨normalizeKeyVal (r.getD a Value.vNull), normalizeKeyVal (r.getD b Value.vNull),
        Value.vNull⟩ := rfl

theorem pkTupleOfRow_three (a b c : Nat) (r : Row) :
    pkTupleOfRow [a, b, c] r =
      ⟨normalizeKeyVal (r.getD a Value.vNull), normalizeKeyVal (r.getD b Value.vNull),
        normalizeKeyVal (r.getD c Value.vNull)⟩ := rfl

theorem eqInsert_fresh (m : List (String × Value)) (c : String) (v : Value)
    (h : ∀ p ∈ m, p.1 ≠ c) : eqInsert m c v = m ++ [(c, v)] := by
  have hnone : m.find? (fun p => decide (p.1 = c)) = none := by
    rw [List.find?_eq_none]
    intro p hp hdec
    simp only [decide_eq_true_eq] at hdec
    exact h p hp hdec
  unfold eqInsert
  rw [hnone]
  simp

theorem whereClause_nil (k : primaryKeyTuple) (cols : List String) :
    whereClause k cols [] = [] := rfl

theorem whereClause_one (k : primaryKeyTuple) (cols : List String) (a : Nat) :
    whereClause k cols [a] = [(cols.getD a "", k.First)] := rfl

theorem whereClause_two (k : primaryKeyTuple) (cols : List String) (a b : Nat)
    (hab : cols.getD a "" ≠ cols.getD b "") :
    whereClause k cols [a, b] =
      [(cols.getD a "", k.First), (cols.getD b "", k.Second)] := by
  show eqInsert (eqInsert [] (cols.getD a "") k.First) (cols.getD b "") k.Second = _
  rw [show eqInsert [] (cols.getD a "") k.First = [(cols.getD a "", k.First)] from rfl]
  exact eqInsert_fresh _ _ _
    (by intro p hp; rw [List.mem_singleton] at hp; rw [hp]; exact hab)

theorem whereClause_three (k : primaryKeyTuple) (cols : List String) (a b c : Nat)
    (hab : cols.getD a "" ≠ cols.getD b "")
    (hac : cols.getD a "" ≠ cols.getD c "")
    (hbc : cols.getD b "" ≠ cols.getD c "") :
    whereClause k cols [a, b, c] =
      [(cols.getD a "", k.First), (cols.getD b "", k.Second), (cols.getD c "", k.Third)] := by
  show eqInsert (eqInsert (eqInsert [] (cols.getD a "") k.First) (cols.getD b "") k.Second)
      (cols.getD c "") k.Third = _
  rw [show eqInsert [] (cols.getD a "") k.First = [(cols.getD a "", k.First)] from rfl]
  rw [eqInsert_fresh [(cols.getD a "", k.First)] (cols.getD b "") k.Second
    (by intro p hp; rw [List.mem_singleton] at hp; rw [hp]; exact hab)]
  rw [eqInsert_fresh ([(cols.getD a "", k.First)] ++ [(cols.getD b "", k.Second)])
    (cols.getD c "") k.Third ?fresh2]
  case fresh2 =>
    intro p hp
    rcases List.mem_append.mp hp with hp | hp
    · rw [List.mem_singleton] at hp; rw [hp]; exact hac
    · rw [List.mem_singleton] at hp; rw [hp]; exact hbc
  rfl

theorem rowMatches_whereClause_iff {cols : List String} {pk : List Nat}
    (hcnd : cols.Nodup) (hpknd : pk.Nodup) (hlt : ∀ i ∈ pk, i < cols.length)
    (hlen : pk.length ≤ 3) (s r : Row) :
    (rowMatches cols (whereClause (pkTupleOfRow pk s) cols pk) r = true) ↔
      pkTupleOfRow pk r = pkTupleOfRow pk s := by
  match pk, hpknd, hlt, hlen with
  | [], _, _, _ =>
    simp [whereClause_nil, rowMatches, pkTupleOfRow_nil]
  | [a], _, hlt, _ =>
    have ha : a < cols.length := hlt a (by simp)
    have hca := colIndex_getD_self hcnd ha
    rw [whereClause_one, pkTupleOfRow_one, pkTupleOfRow_one]
    simp only [rowMatches, List.all_cons, List.all_nil, Bool.and_true, hca,
      valueMatchesSql, decide_eq_true_eq, normalize_idem, primaryKeyTuple.mk.injEq,
      and_true]
  | [a, b], hpknd, hlt, _ =>
    have ha : a < cols.length := hlt a (by simp)
    have hb : b < cols.length := hlt b (by simp)
    have hab : a ≠ b := by intro h; subst h; simp at hpknd
    have hnab : cols.getD a "" ≠ cols.getD b "" :=
      fun h => hab (nodup_getD_inj hcnd ha hb h)
    have hca := colIndex_getD_self hcnd ha
    have hcb := colIndex_getD_self hcnd hb
    rw [whereClause_two _ _ _ _ hnab, pkTupleOfRow_two, pkTupleOfRow_two]
    simp only [rowMatches, List.all_cons, List.all_nil, Bool.and_true, Bool.and_eq_true,
      hca, hcb, valueMatchesSql, decide_eq_true_eq, normalize_idem,
      primaryKeyTuple.mk.injEq, and_true]
  | [a, b, c], hpknd, hlt, _ =>
    have ha : a < cols.length := hlt a (by simp)
    have hb : b < cols.length := hlt b (by simp)
    have hc : c < cols.length := hlt c (by simp)
    have hab : a ≠ b := by intro h; subst h; simp at hpknd
    have hac : a ≠ c := by intro h; subst h; simp at hpknd
    have hbc : b ≠ c := by intro h; subst h; simp at hpknd
    have hnab : cols.getD a "" ≠ cols.getD b "" :=
      fun h => hab (nodup_getD_inj hcnd ha hb h)
    have hnac : cols.getD a "" ≠ cols.getD c "" :=
      fun h => hac (nodup_getD_inj hcnd ha hc h)
    have hnbc : cols.getD b "" ≠ cols.getD c "" :=
      fun h => hbc (nodup_getD_inj hcnd hb hc h)
    have hca := colIndex_getD_self hcnd ha
    have hcb := colIndex_getD_self hcnd hb
    have hcc := colIndex_getD_self hcnd hc
    rw [whereClause_three _ _ _ _ _ hnab hnac hnbc, pkTupleOfRow_three, pkTupleOfRow_three]
    simp only [rowMatches, List.all_cons, List.all_nil, Bool.and_true, Bool.and_eq_true,
      hca, hcb, hcc, valueMatchesSql, decide_eq_true_eq, normalize_idem,
      primaryKeyTuple.mk.injEq, and_true]
  | _ :: _ :: _ :: _ :: _, _, _, hlen => simp at hlen

theorem getD_set_ne {l : Row} {i j : Nat} (h : i ≠ j) (a : Value) :
    (l.set i a).getD j Value.vNull = l.getD j Value.vNull := by
  rw [List.getD_eq_getElem?_getD, List.getD_eq_getElem?_getD, List.getElem?_set_ne h]

theorem getD_set_self {l : Row} {i : Nat} (h : i < l.length) (a : Value) :
    (l.set i a).getD i Value.vNull = a := by
  rw [List.getD_eq_getElem?_getD, List.getElem?_set_self h]
  rfl

theorem getD_mem {l : Row} {i : Nat} (h : i < l.length) :
    l.getD i Value.vNull ∈ l := by
  rw [List.getD_eq_getElem?_getD, List.getElem?_eq_getElem h]
  exact List.getElem_mem h

theorem list_ext_getD {l1 l2 : Row} (hlen : l1.length = l2.length)
    (h : ∀ j, j < l1.length → l1.getD j Value.vNull = l2.getD j Value.vNull) : l1 = l2 := by
  apply List.ext_getElem hlen
  intro j h1 h2
  have := h j h1
  rw [List.getD_eq_getElem?_getD, List.getD_eq_getElem?_getD,
    List.getElem?_eq_getElem h1, List.getElem?_eq_getElem h2] at this
  exact this

theorem updateSetsAux_names (pks : List String) (v : Row) :
    ∀ (i : Nat) (cols2 : List String),
      (updateSetsAux pks v i cols2).map Prod.fst = cols2.filter (fun c => decide (c ∉ pks)) := by
  intro i cols2
  induction cols2 generalizing i with
  | nil => rfl
  | cons c rest ih =>
    unfold updateSetsAux
    by_cases h : c ∈ pks
    · rw [if_pos h, List.filter_cons_of_neg (by simp [h]), ih]
    · rw [if_neg h, List.filter_cons_of_pos (by simp [h]), List.map_cons, ih]

theorem updateSets_mem_getD (pks : List String) (v : Row) (cols2 : List String) :
    ∀ (i j : Nat), j < cols2.length → cols2.getD j "" ∉ pks →
      (cols2.getD j "", v.getD (i + j) Value.vNull) ∈ updateSetsAux pks v i cols2 := by
  induction cols2 with
  | nil => intro i j hj; cases hj
  | cons c rest ih =>
    intro i j hj hnp
    match j with
    | 0 =>
      simp only [List.getD_cons_zero] at hnp ⊢
      unfold updateSetsAux
      rw [if_neg hnp]
      exact List.mem_cons_self _ _
    | j + 1 =>
      simp only [List.getD_cons_succ] at hnp ⊢
      have hj2 : j < rest.length := Nat.lt_of_succ_lt_succ hj
      have := ih (i + 1) j hj2 hnp
      rw [show i + 1 + j = i + (j + 1) by omega] at this
      unfold updateSetsAux
      by_cases h : c ∈ pks
      · rw [if_pos h]; exact this
      · rw [if_neg h]; exact List.mem_cons_of_mem _ this

theorem applySets_length (cols : List String) (sets : List (String × Value)) (row : Row) :
    (applySets cols sets row).length = row.length := by
  induction sets generalizing row with
  | nil => rfl
  | cons p rest ih =>
    unfold applySets at ih ⊢
    rw [List.foldl_cons]
    cases colIndex cols p.1 with
    | some i => rw [ih]; exact List.length_set _ _ _
    | none => exact ih row

theorem applySets_getD_skip (cols : List String) (sets : List (String × Value)) (row : Row)
    (j : Nat) (h : ∀ p ∈ sets, colIndex cols p.1 ≠ some j) :
    (applySets cols sets row).getD j Value.vNull = row.getD j Value.vNull := by
  induction sets generalizing row with
  | nil => rfl
  | cons p rest ih =>
    unfold applySets at ih ⊢
    rw [List.foldl_cons]
    cases hc : colIndex cols p.1 with
    | some i =>
      rw [ih _ (fun q hq => h q (List.mem_cons_of_mem p hq))]
      have hij : i ≠ j := fun he => h p (List.mem_cons_self p rest) (he ▸ hc)
      exact getD_set_ne hij _
    | none => exact ih row (fun q hq => h q (List.mem_cons_of_mem p hq))

theorem applySets_getD_hit (cols : List String) {sets : List (String × Value)}
    (hnames : (sets.map Prod.fst).Nodup) (row : Row) {j : Nat} {x : Value} {c : String}
    (hidx : colIndex cols c = some j) (hmem : (c, x) ∈ sets) (hjr : j < row.length) :
    (applySets cols sets row).getD j Value.vNull = x := by
  induction sets generalizing row with
  | nil => cases hmem
  | cons p rest ih =>
    simp only [List.map_cons, List.nodup_cons] at hnames
    unfold applySets at ih ⊢
    rw [List.foldl_cons]
    rcases List.mem_cons.mp hmem with hp | hp
    · rw [← hp]
      rw [hidx]
      have hskip : ∀ q ∈ rest, colIndex cols q.1 ≠ some j := by
        intro q hq hcq
        have h1 := (colIndex_spec hidx).2
        have h2 := (colIndex_spec hcq).2
        have hqp : q.1 = p.1 := by rw [← hp]; exact h2.symm.trans h1
        exact hnames.1 (hqp ▸ List.mem_map_of_mem Prod.fst hq)
      show (applySets cols rest (row.set j x)).getD j Value.vNull = x
      rw [applySets_getD_skip cols rest _ j hskip]
      exact getD_set_self hjr x
    · have hcne : p.1 ≠ c := by
        intro he
        exact hnames.1 (he ▸ List.mem_map_of_mem Prod.fst hp)
      cases hc : colIndex cols p.1 with
      | some i =>
        have hij : i ≠ j := by
          intro he
          subst he
          exact hcne ((colIndex_spec hc).2.symm.trans (colIndex_spec hidx).2)
        exact ih hnames.2 _ hp (by rw [List.length_set]; exact hjr)
      | none => exact ih hnames.2 row hp hjr

theorem applySets_updateSets_getD {t : table} (hnd : t.columns.Nodup) (v row : Row)
    (hrlen : row.length = t.columns.length) {j : Nat} (hj : j < t.columns.length) :
    (applySets t.columns (updateSets t v) row).getD j Value.vNull =
      if t.columns.getD j "" ∈ t.primaryKeys then row.getD j Value.vNull
      else v.getD j Value.vNull := by
  by_cases hpk : t.columns.getD j "" ∈ t.primaryKeys
  · rw [if_pos hpk]
    apply applySets_getD_skip
    intro p hp hcontra
    have hname : p.1 ∈ (updateSetsAux t.primaryKeys v 0 t.columns).map Prod.fst :=
      List.mem_map_of_mem Prod.fst hp
    rw [updateSetsAux_names] at hname
    have hnp := List.of_mem_filter hname
    simp only [decide_eq_true_eq] at hnp
    exact hnp ((colIndex_spec hcontra).2 ▸ hpk)
  · rw [if_neg hpk]
    have hnames : ((updateSets t v).map Prod.fst).Nodup := by
      unfold updateSets
      rw [updateSetsAux_names]
      exact hnd.filter _
    have hmem : (t.columns.getD j "", v.getD j Value.vNull) ∈ updateSets t v := by
      have := updateSets_mem_getD t.primaryKeys v t.columns 0 j hj hpk
      simpa using this
    exact applySets_getD_hit t.columns hnames row (colIndex_getD_self hnd hj) hmem
      (hrlen ▸ hj)

theorem pkTupleOfRow_congr {pk : List Nat} {r1 r2 : Row}
    (h : ∀ i ∈ pk, r1.getD i Value.vNull = r2.getD i Value.vNull) :
    pkTupleOfRow pk r1 = pkTupleOfRow pk r2 := by
  unfold pkTupleOfRow
  suffices hs : ∀ (i0 : Nat) (acc : primaryKeyTuple),
      pkTupleOfRowAux r1 i0 pk acc = pkTupleOfRowAux r2 i0 pk acc from hs 0 {}
  induction pk with
  | nil => intro i0 acc; rfl
  | cons a rest ih =>
    intro i0 acc
    unfold pkTupleOfRowAux
    rw [h a (List.mem_cons_self a rest)]
    exact ih (fun i hi => h i (List.mem_cons_of_mem a hi)) _ _

theorem pkTuple_eq_component {pk : List Nat} (hlen : pk.length ≤ 3) {r s : Row}
    (h : pkTupleOfRow pk r = pkTupleOfRow pk s) :
    ∀ i ∈ pk, normalizeKeyVal (r.getD i Value.vNull) = normalizeKeyVal (s.getD i Value.vNull) := by
  match pk, hlen with
  | [], _ => intro i hi; cases hi
  | [a], _ =>
    rw [pkTupleOfRow_one, pkTupleOfRow_one, primaryKeyTuple.mk.injEq] at h
    intro i hi
    rw [List.mem_singleton] at hi
    subst hi
    exact h.1
  | [a, b], _ =>
    rw [pkTupleOfRow_two, pkTupleOfRow_two, primaryKeyTuple.mk.injEq] at h
    intro i hi
    rcases List.mem_cons.mp hi with hi | hi
    · subst hi; exact h.1
    · rw [List.mem_singleton] at hi; subst hi; exact h.2.1
  | [a, b, c], _ =>
    rw [pkTupleOfRow_three, pkTupleOfRow_three, primaryKeyTuple.mk.injEq] at h
    intro i hi
    rcases List.mem_cons.mp hi with hi | hi
    · subst hi; exact h.1
    rcases List.mem_cons.mp hi with hi | hi
    · subst hi; exact h.2.1
    · rw [List.mem_singleton] at hi; subst hi; exact h.2.2
  | _ :: _ :: _ :: _ :: _, hlen => simp at hlen

theorem filterMap_cons_toList {α β : Type} (f : α → Option β) (a : α) (l : List α) :
    (a :: l).filterMap f = (f a).toList ++ l.filterMap f := by
  cases h : f a <;> simp [List.filterMap_cons, h]

theorem buildDiff_go (t : table) (sM : EntryMap) :
    ∀ (tm : EntryMap) (ins upd : List Stmt), (sM.map Prod.fst).Nodup →
      sM.foldl (diffStep t) ⟨tm, ins, upd⟩ =
        ⟨tm.filter (fun q => decide (q.1 ∉ sM.map Prod.fst)),
         ins ++ (sM.filter (fun p => decide (mapLookup tm p.1 = none))).map
           (fun p => Stmt.insertStmt t.columns p.2),
         upd ++ (sM.filter (fun p => decide (mapLookup tm p.1 ≠ none))).filterMap
           (fun p => mkUpdate t p.1 p.2)⟩ := by
  induction sM with
  | nil =>
    intro tm ins upd _
    simp [List.filter_true]
  | cons kv rest ih =>
    intro tm ins upd hnd
    simp only [List.map_cons, List.nodup_cons] at hnd
    rw [List.foldl_cons]
    cases hlk : mapLookup tm kv.1 with
    | none =>
      have hstep : diffStep t ⟨tm, ins, upd⟩ kv =
          ⟨tm, ins ++ [Stmt.insertStmt t.columns kv.2], upd⟩ := by
        simp only [diffStep, hlk]
      rw [hstep, ih tm _ _ hnd.2]
      have hins : (kv :: rest).filter (fun p => decide (mapLookup tm p.1 = none))
          = kv :: rest.filter (fun p => decide (mapLookup tm p.1 = none)) :=
        List.filter_cons_of_pos (by simp [hlk])
      have hupd : (kv :: rest).filter (fun p => decide (mapLookup tm p.1 ≠ none))
          = rest.filter (fun p => decide (mapLookup tm p.1 ≠ none)) :=
        List.filter_cons_of_neg (by simp [hlk])
      rw [hins, hupd]
      simp only [DiffAcc.mk.injEq]
      refine ⟨?_, ?_, trivial⟩
      · apply List.filter_congr
        intro q hq
        have hqk : q.1 ≠ kv.1 := by
          intro he
          exact (mapLookup_eq_none_iff tm kv.1).mp hlk
            (he ▸ List.mem_map_of_mem Prod.fst hq)
        by_cases hr : q.1 ∈ rest.map Prod.fst <;> simp [hr, hqk]
      · simp
    | some w =>
      have h2 : mapLookup (mapErase tm kv.1) kv.1 = none := mapLookup_mapErase_self tm kv.1
      have hstep : diffStep t ⟨tm, ins, upd⟩ kv =
          ⟨mapErase tm kv.1, ins, upd ++ (mkUpdate t kv.1 kv.2).toList⟩ := by
        simp only [diffStep, hlk, h2]
        rfl
      rw [hstep, ih _ _ _ hnd.2]
      have hrest_ne : ∀ p ∈ rest, p.1 ≠ kv.1 := by
        intro p hp he
        exact hnd.1 (he ▸ List.mem_map_of_mem Prod.fst hp)
      have hins : rest.filter (fun p => decide (mapLookup (mapErase tm kv.1) p.1 = none))
          = rest.filter (fun p => decide (mapLookup tm p.1 = none)) := by
        apply List.filter_congr
        intro p hp
        rw [mapLookup_mapErase_ne tm (hrest_ne p hp)]
      have hupd : rest.filter (fun p => decide (mapLookup (mapErase tm kv.1) p.1 ≠ none))
          = rest.filter (fun p => decide (mapLookup tm p.1 ≠ none)) := by
        apply List.filter_congr
        intro p hp
        rw [mapLookup_mapErase_ne tm (hrest_ne p hp)]
      rw [hins, hupd]
      have hinsc : (kv :: rest).filter (fun p => decide (mapLookup tm p.1 = none))
          = rest.filter (fun p => decide (mapLookup tm p.1 = none)) :=
        List.filter_cons_of_neg (by simp [hlk])
      have hupdc : (kv :: rest).filter (fun p => decide (mapLookup tm p.1 ≠ none))
          = kv :: rest.filter (fun p => decide (mapLookup tm p.1 ≠ none)) :=
        List.filter_cons_of_pos (by simp [hlk])
      rw [hinsc, hupdc, filterMap_cons_toList]
      simp only [DiffAcc.mk.injEq]
      refine ⟨?_, trivial, ?_⟩
      · unfold mapErase
        rw [List.filter_filter]
        apply List.filter_congr
        intro q hq
        by_cases hr : q.1 ∈ rest.map Prod.fst <;> by_cases hk : q.1 = kv.1 <;>
          simp [hr, hk]
      · simp

theorem buildDiff_eq (t : table) (sM tM : EntryMap) (hnd : (sM.map Prod.fst).Nodup) :
    buildDiff t sM tM =
      ⟨tM.filter (fun q => decide (q.1 ∉ sM.map Prod.fst)),
       (sM.filter (fun p => decide (mapLookup tM p.1 = none))).map
         (fun p => Stmt.insertStmt t.columns p.2),
       (sM.filter (fun p => decide (mapLookup tM p.1 ≠ none))).filterMap
         (fun p => mkUpdate t p.1 p.2)⟩ := by
  unfold buildDiff
  rw [buildDiff_go t sM tM [] [] hnd]
  simp

theorem runStmts_ok (env : ExecEnv) (cols : List String)
    (hok : ∀ s, env.stmtErr s = none) :
    ∀ (db : DB) (stmts : List Stmt),
      runStmts env cols db stmts = (applyAll cols db stmts, stmts, none) := by
  intro db stmts
  induction stmts generalizing db with
  | nil => rfl
  | cons s rest ih =>
    unfold runStmts
    rw [hok s, ih (applyStmt cols db s)]
    rfl

theorem runStmts_error_none {env : ExecEnv} {cols : List String} :
    ∀ {db : DB} {stmts : List Stmt}, (runStmts env cols db stmts).2.2 = none →
      runStmts env cols db stmts = (applyAll cols db stmts, stmts, none) := by
  intro db stmts
  induction stmts generalizing db with
  | nil => intro _; rfl
  | cons s rest ih =>
    intro h
    unfold runStmts at h ⊢
    cases he : env.stmtErr s with
    | some e => rw [he] at h; cases h
    | none =>
      rw [he] at h
      have h2 : (runStmts env cols (applyStmt cols db s) rest).2.2 = none := h
      rw [ih h2]
      rfl

theorem WFtable_nodup {t : table} (h : WFtable t) : t.columns.Nodup := h.1

theorem WFtable_pk_nodup {t : table} (h : WFtable t) : t.primaryKeyIndices.Nodup := by
  rw [h.2.2.2]
  exact gpk_nodup h.2.1

theorem WFtable_pk_lt {t : table} (h : WFtable t) :
    ∀ i ∈ t.primaryKeyIndices, i < t.columns.length := by
  intro i hi
  rw [h.2.2.2] at hi
  exact mem_gpk_lt hi

theorem WFtable_pk_len3 {t : table} (h : WFtable t) : t.primaryKeyIndices.length ≤ 3 := by
  rw [h.2.2.2]
  exact Nat.le_trans (gpk_length_le _ _) h.2.2.1

theorem WFtable_pk_names {t : table} (h : WFtable t) :
    ∀ i ∈ t.primaryKeyIndices, t.columns.getD i "" ∈ t.primaryKeys := by
  intro i hi
  rw [h.2.2.2] at hi
  exact mem_gpk_name hi

theorem WFtable_pk_mem_iff {t : table} (h : WFtable t) {i : Nat} (hi : i < t.columns.length) :
    i ∈ t.primaryKeyIndices ↔ t.columns.getD i "" ∈ t.primaryKeys := by
  rw [h.2.2.2]
  exact mem_gpk_iff h.1 hi

theorem rowMatches_whereClause_eq {t : table} (h : WFtable t) (s r : Row) :
    rowMatches t.columns
        (whereClause (pkTupleOfRow t.primaryKeyIndices s) t.columns t.primaryKeyIndices) r
      = decide (pkTupleOfRow t.primaryKeyIndices r = pkTupleOfRow t.primaryKeyIndices s) := by
  have hiff := rowMatches_whereClause_iff (WFtable_nodup h) (WFtable_pk_nodup h)
    (WFtable_pk_lt h) (WFtable_pk_len3 h) s r
  by_cases hk : pkTupleOfRow t.primaryKeyIndices r = pkTupleOfRow t.primaryKeyIndices s
  · rw [hiff.mpr hk]
    simp [hk]
  · rw [decide_eq_false hk]
    cases hb : rowMatches t.columns
        (whereClause (pkTupleOfRow t.primaryKeyIndices s) t.columns t.primaryKeyIndices) r
    · rfl
    · exact absurd (hiff.mp hb) hk

theorem keyf_applySets {t : table} (h : WFtable t) (v row : Row)
    (hrlen : row.length = t.columns.length) :
    pkTupleOfRow t.primaryKeyIndices (applySets t.columns (updateSets t v) row)
      = pkTupleOfRow t.primaryKeyIndices row := by
  apply pkTupleOfRow_congr
  intro i hi
  rw [applySets_updateSets_getD (WFtable_nodup h) v row hrlen (WFtable_pk_lt h i hi)]
  rw [if_pos (WFtable_pk_names h i hi)]

theorem applySets_row_eq_source {t : table} (h : WFtable t) {v row : Row}
    (hvlen : v.length = t.columns.length) (hrlen : row.length = t.columns.length)
    (hkeq : pkTupleOfRow t.primaryKeyIndices row = pkTupleOfRow t.primaryKeyIndices v)
    (hnr : ∀ i ∈ t.primaryKeyIndices,
      normalizeKeyVal (row.getD i Value.vNull) = row.getD i Value.vNull)
    (hnv : ∀ i ∈ t.primaryKeyIndices,
      normalizeKeyVal (v.getD i Value.vNull) = v.getD i Value.vNull) :
    applySets t.columns (updateSets t v) row = v := by
  apply list_ext_getD
  · rw [applySets_length, hrlen, hvlen]
  · intro j hj
    rw [applySets_length] at hj
    rw [hrlen] at hj
    rw [applySets_updateSets_getD (WFtable_nodup h) v row hrlen hj]
    by_cases hpk : t.columns.getD j "" ∈ t.primaryKeys
    · rw [if_pos hpk]
      have hjpk : j ∈ t.primaryKeyIndices := (WFtable_pk_mem_iff h hj).mpr hpk
      have := pkTuple_eq_component (WFtable_pk_len3 h) hkeq j hjpk
      rw [hnr j hjpk, hnv j hjpk] at this
      exact this
    · rw [if_neg hpk]

theorem applyAll_append (cols : List String) (db : DB) (l1 l2 : List Stmt) :
    applyAll cols db (l1 ++ l2) = applyAll cols (applyAll cols db l1) l2 := by
  unfold applyAll
  rw [List.foldl_append]

theorem applyAll_deletes {t : table} (h : WFtable t) (m : EntryMap)
    (hkeys : ∀ p ∈ m, p.1 = pkTupleOfRow t.primaryKeyIndices p.2) :
    ∀ db : DB,
      applyAll t.columns db
          (m.map (fun p => Stmt.deleteStmt (whereClause p.1 t.columns t.primaryKeyIndices)))
        = db.filter (fun r => decide (pkTupleOfRow t.primaryKeyIndices r ∉ m.map Prod.fst)) := by
  induction m with
  | nil => intro db; simp [applyAll]
  | cons p rest ih =>
    intro db
    rw [List.map_cons]
    show applyAll t.columns db
        (Stmt.deleteStmt (whereClause p.1 t.columns t.primaryKeyIndices) ::
          rest.map (fun p => Stmt.deleteStmt (whereClause p.1 t.columns t.primaryKeyIndices)))
      = _
    have hstep : applyStmt t.columns db
        (Stmt.deleteStmt (whereClause p.1 t.columns t.primaryKeyIndices))
        = db.filter (fun r => decide (pkTupleOfRow t.primaryKeyIndices r ≠ p.1)) := by
      show db.filter _ = _
      apply List.filter_congr
      intro r _
      rw [hkeys p (List.mem_cons_self p rest), rowMatches_whereClause_eq h]
      by_cases hk : pkTupleOfRow t.primaryKeyIndices r = pkTupleOfRow t.primaryKeyIndices p.2 <;>
        simp [hk]
    have hchain : applyAll t.columns db
        (Stmt.deleteStmt (whereClause p.1 t.columns t.primaryKeyIndices) ::
          rest.map (fun p => Stmt.deleteStmt (whereClause p.1 t.columns t.primaryKeyIndices)))
        = applyAll t.columns
            (applyStmt t.columns db
              (Stmt.deleteStmt (whereClause p.1 t.columns t.primaryKeyIndices)))
            (rest.map (fun p => Stmt.deleteStmt (whereClause p.1 t.columns t.primaryKeyIndices))) := rfl
    rw [hchain, hstep, ih (fun q hq => hkeys q (List.mem_cons_of_mem p hq))]
    rw [List.filter_filter]
    apply List.filter_congr
    intro r _
    by_cases h1 : pkTupleOfRow t.primaryKeyIndices r = p.1 <;>
      by_cases h2 : pkTupleOfRow t.primaryKeyIndices r ∈ rest.map Prod.fst <;>
      simp [h1, h2]

theorem applyAll_inserts (cols : List String) (rows : List Row) :
    ∀ db : DB, applyAll cols db (rows.map (fun v => Stmt.insertStmt cols v)) = db ++ rows := by
  induction rows with
  | nil => intro db; simp [applyAll]
  | cons v rest ih =>
    intro db
    rw [List.map_cons]
    show applyAll cols (applyStmt cols db (Stmt.insertStmt cols v)) _ = _
    rw [show applyStmt cols db (Stmt.insertStmt cols v) = db ++ [v] from rfl, ih]
    simp

theorem mkUpdate_of_empty {t : table} {k : primaryKeyTuple} {v : Row}
    (h : (updateSets t v).isEmpty) : mkUpdate t k v = none := by
  unfold mkUpdate
  simp [h]

theorem mkUpdate_of_nonempty {t : table} {k : primaryKeyTuple} {v : Row}
    (h : ¬(updateSets t v).isEmpty) :
    mkUpdate t k v =
      some (Stmt.updateStmt (whereClause k t.columns t.primaryKeyIndices) (updateSets t v)) := by
  unfold mkUpdate
  simp [h]

theorem applyAll_updates {t : table} (h : WFtable t) (m : EntryMap)
    (hkeys : ∀ p ∈ m, p.1 = pkTupleOfRow t.primaryKeyIndices p.2)
    (hnd : (m.map Prod.fst).Nodup) :
    ∀ db : DB, (∀ row ∈ db, row.length = t.columns.length) →
      applyAll t.columns db (m.filterMap (fun p => mkUpdate t p.1 p.2)) =
        db.map (fun row =>
          match mapLookup m (pkTupleOfRow t.primaryKeyIndices row) with
          | some v => applySets t.columns (updateSets t v) row
          | none => row) := by
  induction m with
  | nil =>
    intro db _
    simp only [List.filterMap_nil, mapLookup_nil]
    show db = db.map (fun row => row)
    rw [List.map_id']
  | cons p rest ih =>
    intro db hdb
    simp only [List.map_cons, List.nodup_cons] at hnd
    have hkrest : ∀ q ∈ rest, q.1 = pkTupleOfRow t.primaryKeyIndices q.2 :=
      fun q hq => hkeys q (List.mem_cons_of_mem p hq)
    rw [filterMap_cons_toList]
    by_cases hset : (updateSets t p.2).isEmpty
    · rw [mkUpdate_of_empty hset]
      show applyAll t.columns db ([] ++ rest.filterMap (fun p => mkUpdate t p.1 p.2)) = _
      rw [List.nil_append, ih hkrest hnd.2 db hdb]
      apply List.map_congr_left
      intro row _
      rw [mapLookup_cons]
      by_cases hk : p.1 = pkTupleOfRow t.primaryKeyIndices row
      · rw [if_pos hk]
        have hrnone : mapLookup rest (pkTupleOfRow t.primaryKeyIndices row) = none := by
          rw [mapLookup_eq_none_iff]
          intro hmem
          exact hnd.1 (hk ▸ hmem)
        rw [hrnone]
        have hsets : updateSets t p.2 = [] := by
          cases hu : updateSets t p.2
          · rfl
          · rw [hu] at hset; simp at hset
        show row = applySets t.columns (updateSets t p.2) row
        rw [hsets]
        rfl
      · rw [if_neg hk]
    · rw [mkUpdate_of_nonempty hset]
      have hstep : applyStmt t.columns db
          (Stmt.updateStmt (whereClause p.1 t.columns t.primaryKeyIndices) (updateSets t p.2))
          = db.map (fun row =>
              if pkTupleOfRow t.primaryKeyIndices row = p.1 then
                applySets t.columns (updateSets t p.2) row
              else row) := by
        show db.map _ = _
        apply List.map_congr_left
        intro row _
        rw [hkeys p (List.mem_cons_self p rest), rowMatches_whereClause_eq h]
        by_cases hk : pkTupleOfRow t.primaryKeyIndices row
            = pkTupleOfRow t.primaryKeyIndices p.2
        · rw [if_pos (by simp [hk]), if_pos hk]
        · rw [if_neg (by simp [hk]), if_neg hk]
      show applyAll t.columns
          (applyStmt t.columns db
            (Stmt.updateStmt (whereClause p.1 t.columns t.primaryKeyIndices) (updateSets t p.2)))
          (rest.filterMap (fun p => mkUpdate t p.1 p.2)) = _
      rw [hstep]
      have hdb2 : ∀ row ∈ db.map (fun row =>
          if pkTupleOfRow t.primaryKeyIndices row = p.1 then
            applySets t.columns (updateSets t p.2) row
          else row), row.length = t.columns.length := by
        intro row2 hrow2
        rcases List.mem_map.mp hrow2 with ⟨row, hrow, heq⟩
        by_cases hk : pkTupleOfRow t.primaryKeyIndices row = p.1
        · rw [if_pos hk] at heq
          rw [← heq, applySets_length]
          exact hdb row hrow
        · rw [if_neg hk] at heq
          rw [← heq]
          exact hdb row hrow
      rw [ih hkrest hnd.2 _ hdb2, List.map_map]
      apply List.map_congr_left
      intro row hrow
      show (match mapLookup rest (pkTupleOfRow t.primaryKeyIndices
          (if pkTupleOfRow t.primaryKeyIndices row = p.1 then
            applySets t.columns (updateSets t p.2) row
          else row)) with
        | some v => applySets t.columns (updateSets t v)
            (if pkTupleOfRow t.primaryKeyIndices row = p.1 then
              applySets t.columns (updateSets t p.2) row
            else row)
        | none =>
          (if pkTupleOfRow t.primaryKeyIndices row = p.1 then
            applySets t.columns (updateSets t p.2) row
          else row)) = _
      rw [mapLookup_cons]
      by_cases hk : pkTupleOfRow t.primaryKeyIndices row = p.1
      · rw [if_pos hk, if_pos hk.symm]
        have hk2 : pkTupleOfRow t.primaryKeyIndices
            (applySets t.columns (updateSets t p.2) row) = p.1 := by
          rw [keyf_applySets h p.2 row (hdb row hrow)]
          exact hk
        rw [hk2]
        have hrnone : mapLookup rest p.1 = none := by
          rw [mapLookup_eq_none_iff]
          exact hnd.1
        rw [hrnone]
      · rw [if_neg hk, if_neg (fun he => hk he.symm)]

theorem sM_keys_eq {t : table} (db : DB)
    (hnd : (db.map (pkTupleOfRow t.primaryKeyIndices)).Nodup) :
    (getEntries t db).2.map Prod.fst
      = (scanRows t.primaryKeyIndices db).map (pkTupleOfRow t.primaryKeyIndices) := by
  rw [getEntries_snd _ _ hnd, List.map_map]
  rfl

theorem sM_keys_nodup {t : table} (db : DB)
    (hnd : (db.map (pkTupleOfRow t.primaryKeyIndices)).Nodup) :
    ((getEntries t db).2.map Prod.fst).Nodup := by
  rw [sM_keys_eq db hnd]
  exact scan_keys_nodup hnd

theorem entry_mem_getEntries {t : table} {db : DB}
    (hnd : (db.map (pkTupleOfRow t.primaryKeyIndices)).Nodup)
    {p : primaryKeyTuple × Row} (hp : p ∈ (getEntries t db).2) :
    p.1 = pkTupleOfRow t.primaryKeyIndices p.2 ∧ p.2 ∈ db := by
  rw [getEntries_snd _ _ hnd] at hp
  rcases List.mem_map.mp hp with ⟨r, hr, heq⟩
  have hmem : r ∈ db := ((scanRows_perm t.primaryKeyIndices db).mem_iff).mp hr
  rw [← heq]
  exact ⟨rfl, hmem⟩

theorem mapLookup_getEntries {t : table} (db : DB)
    (hnd : (db.map (pkTupleOfRow t.primaryKeyIndices)).Nodup) (k : primaryKeyTuple) :
    mapLookup (getEntries t db).2 k = dbFind t.primaryKeyIndices db k := by
  rw [getEntries_snd _ _ hnd, mapLookup_map_pair]
  exact dbFind_perm t.primaryKeyIndices (scanRows_perm t.primaryKeyIndices db) hnd k

theorem dbFind_isSome_iff (pk : List Nat) (db : DB) (k : primaryKeyTuple) :
    (dbFind pk db k).isSome ↔ k ∈ db.map (pkTupleOfRow pk) := by
  unfold dbFind
  rw [List.find?_isSome]
  constructor
  · rintro ⟨r, hr, hp⟩
    simp only [decide_eq_true_eq] at hp
    exact hp ▸ List.mem_map_of_mem (pkTupleOfRow pk) hr
  · intro hmem
    rcases List.mem_map.mp hmem with ⟨r, hr, heq⟩
    exact ⟨r, hr, by simp [heq]⟩

theorem keys_getEntries_iff {t : table} (db : DB)
    (hnd : (db.map (pkTupleOfRow t.primaryKeyIndices)).Nodup) (k : primaryKeyTuple) :
    k ∈ (getEntries t db).2.map Prod.fst ↔ k ∈ db.map (pkTupleOfRow t.primaryKeyIndices) := by
  rw [← mapLookup_isSome_iff, mapLookup_getEntries db hnd, dbFind_isSome_iff]

theorem dbFind_eq_some_facts {pk : List Nat} {db : DB} {k : primaryKeyTuple} {v : Row}
    (h : dbFind pk db k = some v) : v ∈ db ∧ pkTupleOfRow pk v = k := by
  have hmem := List.mem_of_find?_eq_some h
  have hp := List.find?_some h
  simp only [decide_eq_true_eq] at hp
  exact ⟨hmem, hp⟩

theorem mapLookup_filter_of_pred {m : EntryMap} {q : primaryKeyTuple × Row → Bool}
    {k : primaryKeyTuple} (hq : ∀ p ∈ m, p.1 = k → q p = true) :
    mapLookup (m.filter q) k = mapLookup m k := by
  induction m with
  | nil => rfl
  | cons p rest ih =>
    by_cases hk : p.1 = k
    · rw [List.filter_cons_of_pos (hq p (List.mem_cons_self p rest) hk), mapLookup_cons,
        mapLookup_cons, if_pos hk, if_pos hk]
    · have ihr := ih (fun q hqm hqk => hq q (List.mem_cons_of_mem p hqm) hqk)
      cases hqp : q p
      · rw [List.filter_cons_of_neg (by simp [hqp]), ihr, mapLookup_cons, if_neg hk]
      · rw [List.filter_cons_of_pos (by simp [hqp]), mapLookup_cons, if_neg hk, ihr,
          mapLookup_cons, if_neg hk]

theorem applyAll_inserts_entries (cols : List String) (m : EntryMap) :
    ∀ db : DB,
      applyAll cols db (m.map (fun p => Stmt.insertStmt cols p.2)) = db ++ m.map Prod.snd := by
  induction m with
  | nil => intro db; simp [applyAll]
  | cons p rest ih =>
    intro db
    rw [List.map_cons]
    show applyAll cols (applyStmt cols db (Stmt.insertStmt cols p.2)) _ = _
    rw [show applyStmt cols db (Stmt.insertStmt cols p.2) = db ++ [p.2] from rfl, ih]
    simp

theorem applyDiff_perm {t : table} {S T : DB}
    (hWFt : WFtable t) (hWFS : WFdb t S) (hWFT : WFdb t T) :
    List.Perm
      (applyAll t.columns T
        ((buildDiff t (getEntries t S).2 (getEntries t T).2).targetMap.map
            (fun p => Stmt.deleteStmt (whereClause p.1 t.columns t.primaryKeyIndices)) ++
          (buildDiff t (getEntries t S).2 (getEntries t T).2).updates ++
          (buildDiff t (getEntries t S).2 (getEntries t T).2).inserts))
      S := by
  have hndS : (S.map (pkTupleOfRow t.primaryKeyIndices)).Nodup := hWFS.2.1
  have hndT : (T.map (pkTupleOfRow t.primaryKeyIndices)).Nodup := hWFT.2.1
  have hsmnd : ((getEntries t S).2.map Prod.fst).Nodup := sM_keys_nodup S hndS
  rw [buildDiff_eq t _ _ hsmnd]
  set sM := (getEntries t S).2 with hsMdef
  set tM := (getEntries t T).2 with htMdef
  set delM := tM.filter (fun q => decide (q.1 ∉ sM.map Prod.fst)) with hdelMdef
  set commonM := sM.filter (fun p => decide (mapLookup tM p.1 ≠ none)) with hcommonMdef
  set newM := sM.filter (fun p => decide (mapLookup tM p.1 = none)) with hnewMdef
  have hdelkeys : ∀ p ∈ delM, p.1 = pkTupleOfRow t.primaryKeyIndices p.2 := by
    intro p hp
    exact (entry_mem_getEntries hndT (List.mem_of_mem_filter hp)).1
  have hcommonkeys : ∀ p ∈ commonM, p.1 = pkTupleOfRow t.primaryKeyIndices p.2 := by
    intro p hp
    exact (entry_mem_getEntries hndS (List.mem_of_mem_filter hp)).1
  have hcommonnd : (commonM.map Prod.fst).Nodup :=
    ((List.filter_sublist sM).map Prod.fst).nodup hsmnd
  rw [applyAll_append, applyAll_append]
  rw [applyAll_deletes hWFt delM hdelkeys T]
  have hT1eq : T.filter
        (fun r => decide (pkTupleOfRow t.primaryKeyIndices r ∉ delM.map Prod.fst))
      = T.filter
        (fun r => decide (pkTupleOfRow t.primaryKeyIndices r ∈ sM.map Prod.fst)) := by
    apply List.filter_congr
    intro r hr
    have hrT : pkTupleOfRow t.primaryKeyIndices r ∈ tM.map Prod.fst := by
      rw [htMdef, keys_getEntries_iff T hndT]
      exact List.mem_map_of_mem (pkTupleOfRow t.primaryKeyIndices) hr
    by_cases hs : pkTupleOfRow t.primaryKeyIndices r ∈ sM.map Prod.fst
    · rw [decide_eq_true hs, decide_eq_true]
      intro hdel
      rcases List.mem_map.mp hdel with ⟨p, hp, hpk⟩
      have := List.of_mem_filter hp
      rw [hpk] at this
      simp only [decide_eq_true_eq] at this
      exact this hs
    · rw [decide_eq_false hs, decide_eq_false]
      intro hdel
      rcases List.mem_map.mp hrT with ⟨p, hp, hpk⟩
      have hpdel : p ∈ delM := by
        rw [hdelMdef]
        apply List.mem_filter.mpr
        refine ⟨hp, ?_⟩
        simp only [decide_eq_true_eq]
        rw [hpk]
        exact hs
      exact hdel (hpk ▸ List.mem_map_of_mem Prod.fst hpdel)
  rw [hT1eq]
  set T1 := T.filter
    (fun r => decide (pkTupleOfRow t.primaryKeyIndices r ∈ sM.map Prod.fst)) with hT1def
  have hT1sub : ∀ r ∈ T1, r ∈ T := fun r hr => List.mem_of_mem_filter hr
  have hT1len : ∀ r ∈ T1, r.length = t.columns.length := fun r hr => hWFT.1 r (hT1sub r hr)
  rw [applyAll_updates hWFt commonM hcommonkeys hcommonnd T1 hT1len]
  rw [applyAll_inserts_entries]
  -- Per-row facts on T1
  have factA : ∀ r ∈ T1, ∃ v,
      mapLookup commonM (pkTupleOfRow t.primaryKeyIndices r) = some v ∧
      dbFind t.primaryKeyIndices S (pkTupleOfRow t.primaryKeyIndices r) = some v ∧
      (match mapLookup commonM (pkTupleOfRow t.primaryKeyIndices r) with
        | some v => applySets t.columns (updateSets t v) r
        | none => r) = v := by
    intro r hr
    have hrS : pkTupleOfRow t.primaryKeyIndices r ∈ sM.map Prod.fst := by
      have := List.of_mem_filter hr
      simpa using this
    have hrT : pkTupleOfRow t.primaryKeyIndices r ∈ tM.map Prod.fst := by
      rw [htMdef, keys_getEntries_iff T hndT]
      exact List.mem_map_of_mem (pkTupleOfRow t.primaryKeyIndices) (hT1sub r hr)
    have hlc : mapLookup commonM (pkTupleOfRow t.primaryKeyIndices r)
        = mapLookup sM (pkTupleOfRow t.primaryKeyIndices r) := by
      rw [hcommonMdef]
      apply mapLookup_filter_of_pred
      intro p _ hpk
      simp only [decide_eq_true_eq]
      rw [hpk]
      rw [← Option.isSome_iff_ne_none, mapLookup_isSome_iff]
      exact hrT
    have hls : mapLookup sM (pkTupleOfRow t.primaryKeyIndices r)
        = dbFind t.primaryKeyIndices S (pkTupleOfRow t.primaryKeyIndices r) := by
      rw [hsMdef]
      exact mapLookup_getEntries S hndS _
    have hsome : (dbFind t.primaryKeyIndices S (pkTupleOfRow t.primaryKeyIndices r)).isSome := by
      rw [dbFind_isSome_iff]
      rw [hsMdef] at hrS
      rw [← keys_getEntries_iff S hndS]
      exact hrS
    rcases Option.isSome_iff_exists.mp hsome with ⟨v, hv⟩
    refine ⟨v, by rw [hlc, hls, hv], hv, ?_⟩
    rw [hlc, hls, hv]
    have hvfacts := dbFind_eq_some_facts hv
    exact applySets_row_eq_source hWFt (hWFS.1 v hvfacts.1) (hWFT.1 r (hT1sub r hr))
      hvfacts.2.symm
      (fun i hi => hWFT.2.2 r (hT1sub r hr) i hi)
      (fun i hi => hWFS.2.2 v hvfacts.1 i hi)
  have hnewfacts : ∀ p ∈ newM, p.1 = pkTupleOfRow t.primaryKeyIndices p.2 ∧ p.2 ∈ S :=
    fun p hp => entry_mem_getEntries hndS (List.mem_of_mem_filter hp)
  -- keys of the final row list
  have hT2keys : (T1.map (fun row =>
      match mapLookup commonM (pkTupleOfRow t.primaryKeyIndices row) with
      | some v => applySets t.columns (updateSets t v) row
      | none => row)).map (pkTupleOfRow t.primaryKeyIndices)
      = T1.map (pkTupleOfRow t.primaryKeyIndices) := by
    rw [List.map_map]
    apply List.map_congr_left
    intro r hr
    rcases factA r hr with ⟨v, hlc, hv, hupd⟩
    show pkTupleOfRow t.primaryKeyIndices
        (match mapLookup commonM (pkTupleOfRow t.primaryKeyIndices r) with
          | some v => applySets t.columns (updateSets t v) r
          | none => r) = pkTupleOfRow t.primaryKeyIndices r
    rw [hupd]
    exact (dbFind_eq_some_facts hv).2
  have hnewkeys : (newM.map Prod.snd).map (pkTupleOfRow t.primaryKeyIndices)
      = newM.map Prod.fst := by
    rw [List.map_map]
    apply List.map_congr_left
    intro p hp
    exact ((hnewfacts p hp).1).symm
  have hSperm : List.Perm (sM.map Prod.fst) (S.map (pkTupleOfRow t.primaryKeyIndices)) := by
    rw [hsMdef, sM_keys_eq S hndS]
    exact (scanRows_perm _ S).map _
  have hsplit : List.Perm (commonM ++ newM) sM := by
    have h0 := List.filter_append_perm (fun p => decide (mapLookup tM p.1 ≠ none)) sM
    rw [show (fun (x : primaryKeyTuple × Row) => !decide (mapLookup tM x.1 ≠ none))
        = (fun x => decide (mapLookup tM x.1 = none)) from
      funext fun p => by cases hlp : mapLookup tM p.1 <;> simp [hlp]] at h0
    exact h0
  have hT1nodup : ((T.filter
      (fun r => decide (pkTupleOfRow t.primaryKeyIndices r ∈ sM.map Prod.fst))).map
        (pkTupleOfRow t.primaryKeyIndices)).Nodup :=
    ((List.filter_sublist T).map (pkTupleOfRow t.primaryKeyIndices)).nodup hndT
  have hcT1 : List.Perm (T1.map (pkTupleOfRow t.primaryKeyIndices)) (commonM.map Prod.fst) := by
    rw [List.perm_ext_iff_of_nodup hT1nodup hcommonnd]
    intro k
    constructor
    · intro hk
      rcases List.mem_map.mp hk with ⟨r, hr, hkr⟩
      have hrS : pkTupleOfRow t.primaryKeyIndices r ∈ sM.map Prod.fst := by
        have := List.of_mem_filter hr
        simpa using this
      have hrT : pkTupleOfRow t.primaryKeyIndices r ∈ tM.map Prod.fst := by
        rw [htMdef, keys_getEntries_iff T hndT]
        exact List.mem_map_of_mem (pkTupleOfRow t.primaryKeyIndices)
          (List.mem_of_mem_filter hr)
      rcases List.mem_map.mp hrS with ⟨p, hp, hpk⟩
      have hpc : p ∈ commonM := by
        rw [hcommonMdef]
        apply List.mem_filter.mpr
        refine ⟨hp, ?_⟩
        simp only [decide_eq_true_eq]
        rw [← Option.isSome_iff_ne_none, mapLookup_isSome_iff, hpk]
        exact hrT
      rw [← hkr, ← hpk]
      exact List.mem_map_of_mem Prod.fst hpc
    · intro hk
      rcases List.mem_map.mp hk with ⟨p, hp, hpk⟩
      have hpsM : p ∈ sM := List.mem_of_mem_filter hp
      have hkT : k ∈ tM.map Prod.fst := by
        have := List.of_mem_filter hp
        simp only [decide_eq_true_eq] at this
        rw [← Option.isSome_iff_ne_none, mapLookup_isSome_iff] at this
        exact hpk ▸ this
      rw [htMdef, keys_getEntries_iff T hndT] at hkT
      rcases List.mem_map.mp hkT with ⟨r, hr, hkr⟩
      have hrT1 : r ∈ T1 := by
        rw [hT1def]
        apply List.mem_filter.mpr
        refine ⟨hr, ?_⟩
        simp only [decide_eq_true_eq]
        rw [hkr, ← hpk]
        exact List.mem_map_of_mem Prod.fst hpsM
      rw [← hkr]
      exact List.mem_map_of_mem (pkTupleOfRow t.primaryKeyIndices) hrT1
  have hkeysperm : List.Perm
      ((T1.map (fun row =>
          match mapLookup commonM (pkTupleOfRow t.primaryKeyIndices row) with
          | some v => applySets t.columns (updateSets t v) row
          | none => row) ++ newM.map Prod.snd).map (pkTupleOfRow t.primaryKeyIndices))
      (S.map (pkTupleOfRow t.primaryKeyIndices)) := by
    rw [List.map_append, hT2keys, hnewkeys]
    have h1 : List.Perm
        (T1.map (pkTupleOfRow t.primaryKeyIndices) ++ newM.map Prod.fst)
        (commonM.map Prod.fst ++ newM.map Prod.fst) :=
      hcT1.append (List.Perm.refl _)
    have h2 : List.Perm (commonM.map Prod.fst ++ newM.map Prod.fst)
        (sM.map Prod.fst) := by
      have := hsplit.map Prod.fst
      rw [List.map_append] at this
      exact this
    exact (h1.trans h2).trans hSperm
  -- every final row is the source row for its own key
  have hall : ∀ r2 ∈ T1.map (fun row =>
        match mapLookup commonM (pkTupleOfRow t.primaryKeyIndices row) with
        | some v => applySets t.columns (updateSets t v) row
        | none => row) ++ newM.map Prod.snd,
      dbFind t.primaryKeyIndices S (pkTupleOfRow t.primaryKeyIndices r2) = some r2 := by
    intro r2 hr2
    rcases List.mem_append.mp hr2 with hr2 | hr2
    · rcases List.mem_map.mp hr2 with ⟨r, hr, heq⟩
      rcases factA r hr with ⟨v, hlc, hv, hupd⟩
      have hrv : r2 = v := by rw [← heq]; exact hupd
      rw [hrv, (dbFind_eq_some_facts hv).2]
      exact hv
    · rcases List.mem_map.mp hr2 with ⟨p, hp, heq⟩
      have hpf := hnewfacts p hp
      rw [← heq]
      exact dbFind_self t.primaryKeyIndices hndS hpf.2
  -- assemble the permutation through the key lists
  have hfinal_eq : T1.map (fun row =>
        match mapLookup commonM (pkTupleOfRow t.primaryKeyIndices row) with
        | some v => applySets t.columns (updateSets t v) row
        | none => row) ++ newM.map Prod.snd
      = ((T1.map (fun row =>
          match mapLookup commonM (pkTupleOfRow t.primaryKeyIndices row) with
          | some v => applySets t.columns (updateSets t v) row
          | none => row) ++ newM.map Prod.snd).map (pkTupleOfRow t.primaryKeyIndices)).map
          (fun k => (dbFind t.primaryKeyIndices S k).getD []) := by
    rw [List.map_map]
    have hpt : ∀ r2 ∈ T1.map (fun row =>
          match mapLookup commonM (pkTupleOfRow t.primaryKeyIndices row) with
          | some v => applySets t.columns (updateSets t v) row
          | none => row) ++ newM.map Prod.snd,
        ((fun k => (dbFind t.primaryKeyIndices S k).getD []) ∘
          pkTupleOfRow t.primaryKeyIndices) r2 = id r2 := by
      intro r2 hr2
      show (dbFind t.primaryKeyIndices S (pkTupleOfRow t.primaryKeyIndices r2)).getD [] = r2
      rw [hall r2 hr2]
      rfl
    rw [List.map_congr_left hpt, List.map_id]
  have hS_eq : (S.map (pkTupleOfRow t.primaryKeyIndices)).map
      (fun k => (dbFind t.primaryKeyIndices S k).getD []) = S := by
    rw [List.map_map]
    have hpt : ∀ r ∈ S, ((fun k => (dbFind t.primaryKeyIndices S k).getD []) ∘
        pkTupleOfRow t.primaryKeyIndices) r = id r := by
      intro r hr
      show (dbFind t.primaryKeyIndices S (pkTupleOfRow t.primaryKeyIndices r)).getD [] = r
      rw [dbFind_self t.primaryKeyIndices hndS hr]
      rfl
    rw [List.map_congr_left hpt, List.map_id]
  have hp2 := hkeysperm.map (fun k => (dbFind t.primaryKeyIndices S k).getD [])
  rw [hS_eq] at hp2
  rw [← hfinal_eq] at hp2
  exact hp2

/-- Statement list one mutating pass builds and then executes, in execution
order: DELETEs, UPDATEs, INSERTs. -/
def stmtsOf (t : table) (sourceMap : EntryMap) (db : DB) : List Stmt :=
  let acc := buildDiff t sourceMap (getEntries t db).2
  let deletes := acc.targetMap.map
    (fun p => Stmt.deleteStmt (whereClause p.1 t.columns t.primaryKeyIndices))
  deletes ++ acc.updates ++ acc.inserts

theorem stmtsOf_eq (t : table) (sm : EntryMap) (db : DB) :
    stmtsOf t sm db =
      (buildDiff t sm (getEntries t db).2).targetMap.map
          (fun p => Stmt.deleteStmt (whereClause p.1 t.columns t.primaryKeyIndices)) ++
        (buildDiff t sm (getEntries t db).2).updates ++
        (buildDiff t sm (getEntries t db).2).inserts := rfl

theorem syncTarget_scanErr {env : ExecEnv} {t : table} {db : DB} {sc : Checksum}
    {sm : EntryMap} {e : Err} (h : env.scanErr = some e) :
    syncTarget env t db sc sm = ⟨db, [], Checksum.empty, false, some e⟩ := by
  obtain ⟨se, ce, fe⟩ := env
  have hx : se = some e := h
  subst hx
  rfl

theorem syncTarget_checksumErr {env : ExecEnv} {t : table} {db : DB} {sc : Checksum}
    {sm : EntryMap} {e : Err} (h1 : env.scanErr = none) (h2 : env.checksumErr = some e) :
    syncTarget env t db sc sm = ⟨db, [], Checksum.empty, false, some e⟩ := by
  obtain ⟨se, ce, fe⟩ := env
  have h1x : se = none := h1
  have h2x : ce = some e := h2
  subst h1x
  subst h2x
  rfl

theorem syncTarget_checksum_eq {env : ExecEnv} {t : table} {db : DB} {sc : Checksum}
    {sm : EntryMap} (h1 : env.scanErr = none) (h2 : env.checksumErr = none)
    (hc : sc = checksumData (getEntries t db).1) :
    syncTarget env t db sc sm = ⟨db, [], sc, false, none⟩ := by
  obtain ⟨se, ce, fe⟩ := env
  have h1x : se = none := h1
  have h2x : ce = none := h2
  subst h1x
  subst h2x
  show (if sc = checksumData (getEntries t db).1 then
      (⟨db, [], checksumData (getEntries t db).1, false, none⟩ : SyncTargetOut)
    else _) = _
  rw [if_pos hc, hc]

theorem syncTarget_mut_err {env : ExecEnv} {t : table} {db : DB} {sc : Checksum}
    {sm : EntryMap} {e : Err} (h1 : env.scanErr = none) (h2 : env.checksumErr = none)
    (hc : ¬sc = checksumData (getEntries t db).1)
    (hrun : (runStmts env t.columns db (stmtsOf t sm db)).2.2 = some e) :
    syncTarget env t db sc sm =
      ⟨(runStmts env t.columns db (stmtsOf t sm db)).1,
        (runStmts env t.columns db (stmtsOf t sm db)).2.1, Checksum.empty, false, some e⟩ := by
  obtain ⟨se, ce, fe⟩ := env
  have h1x : se = none := h1
  have h2x : ce = none := h2
  subst h1x
  subst h2x
  show (if sc = checksumData (getEntries t db).1 then
      (⟨db, [], checksumData (getEntries t db).1, false, none⟩ : SyncTargetOut)
    else _) = _
  rw [if_neg hc]
  show (match (runStmts ⟨none, none, fe⟩ t.columns db (stmtsOf t sm db)).2.2 with
      | some e =>
        (⟨(runStmts ⟨none, none, fe⟩ t.columns db (stmtsOf t sm db)).1,
          (runStmts ⟨none, none, fe⟩ t.columns db (stmtsOf t sm db)).2.1,
          Checksum.empty, false, some e⟩ : SyncTargetOut)
      | none =>
        ⟨(runStmts ⟨none, none, fe⟩ t.columns db (stmtsOf t sm db)).1,
          (runStmts ⟨none, none, fe⟩ t.columns db (stmtsOf t sm db)).2.1,
          checksumData (getEntries t db).1, true, none⟩) = _
  rw [hrun]

theorem syncTarget_mut_ok {env : ExecEnv} {t : table} {db : DB} {sc : Checksum}
    {sm : EntryMap} (h1 : env.scanErr = none) (h2 : env.checksumErr = none)
    (hc : ¬sc = checksumData (getEntries t db).1)
    (hrun : (runStmts env t.columns db (stmtsOf t sm db)).2.2 = none) :
    syncTarget env t db sc sm =
      ⟨applyAll t.columns db (stmtsOf t sm db), stmtsOf t sm db,
        checksumData (getEntries t db).1, true, none⟩ := by
  obtain ⟨se, ce, fe⟩ := env
  have h1x : se = none := h1
  have h2x : ce = none := h2
  subst h1x
  subst h2x
  show (if sc = checksumData (getEntries t db).1 then
      (⟨db, [], checksumData (getEntries t db).1, false, none⟩ : SyncTargetOut)
    else _) = _
  rw [if_neg hc]
  show (match (runStmts ⟨none, none, fe⟩ t.columns db (stmtsOf t sm db)).2.2 with
      | some e =>
        (⟨(runStmts ⟨none, none, fe⟩ t.columns db (stmtsOf t sm db)).1,
          (runStmts ⟨none, none, fe⟩ t.columns db (stmtsOf t sm db)).2.1,
          Checksum.empty, false, some e⟩ : SyncTargetOut)
      | none =>
        ⟨(runStmts ⟨none, none, fe⟩ t.columns db (stmtsOf t sm db)).1,
          (runStmts ⟨none, none, fe⟩ t.columns db (stmtsOf t sm db)).2.1,
          checksumData (getEntries t db).1, true, none⟩) = _
  rw [hrun]
  have hfull := runStmts_error_none hrun
  rw [hfull]

theorem syncTarget_db_perm {t : table} {S T : DB} {env : ExecEnv} {sc : Checksum}
    {sm : EntryMap} (hWFt : WFtable t) (hWFS : WFdb t S) (hWFT : WFdb t T)
    (hsc : sc = checksumData (getEntries t S).1) (hsm : sm = (getEntries t S).2)
    (hok : (syncTarget env t T sc sm).error = none) :
    List.Perm (syncTarget env t T sc sm).db S := by
  cases hscan : env.scanErr with
  | some e => rw [syncTarget_scanErr hscan] at hok; simp at hok
  | none =>
  cases hcs : env.checksumErr with
  | some e => rw [syncTarget_checksumErr hscan hcs] at hok; simp at hok
  | none =>
  by_cases hc : sc = checksumData (getEntries t T).1
  · rw [syncTarget_checksum_eq hscan hcs hc]
    show List.Perm T S
    have hdig : checksumData (getEntries t S).1 = checksumData (getEntries t T).1 := by
      rw [← hsc, hc]
    rw [getEntries_fst, getEntries_fst] at hdig
    have hscans : scanRows t.primaryKeyIndices S = scanRows t.primaryKeyIndices T := by
      simpa [checksumData, Checksum.digest.injEq] using hdig
    have h1 : List.Perm T (scanRows t.primaryKeyIndices T) :=
      (scanRows_perm t.primaryKeyIndices T).symm
    have h2 : List.Perm (scanRows t.primaryKeyIndices T) S := by
      rw [← hscans]
      exact scanRows_perm t.primaryKeyIndices S
    exact h1.trans h2
  · cases hrun : (runStmts env t.columns T (stmtsOf t sm T)).2.2 with
    | some e => rw [syncTarget_mut_err hscan hcs hc hrun] at hok; simp at hok
    | none =>
      rw [syncTarget_mut_ok hscan hcs hc hrun]
      show List.Perm (applyAll t.columns T (stmtsOf t sm T)) S
      rw [hsm, stmtsOf_eq]
      exact applyDiff_perm hWFt hWFS hWFT

/-- Example job shape and data from the specification scenario:
`users(id, name, age)` with primary key `id`. -/
def tEx : table := ⟨["id", "name", "age"], ["id"], [0]⟩

def rowAlice : Row := [Value.vInt 1, Value.vStr "Alice", Value.vInt 30]

def rowBob : Row := [Value.vInt 2, Value.vStr "Bob", Value.vInt 25]

def rowCharlie : Row := [Value.vInt 3, Value.vStr "Charlie", Value.vInt 35]

def rowNick : Row := [Value.vInt 1, Value.vStr "Nick", Value.vInt 31]

def rowAzamat : Row := [Value.vInt 420, Value.vStr "Azamat", Value.vInt 69]

def dbSourceEx : DB := [rowAlice, rowBob, rowCharlie]

def dbTargetEx : DB := [rowNick, rowAzamat]

/-- C1: Convergence of one reconciliation pass.  For well-formed source and
target row-sets, if `syncTarget` is called with the source checksum and source
map that `syncTargets` computes and completes without error, the target rows
afterwards agree with the source keyed by primary-key tuple: every key maps to
exactly the source's row, and no other keys remain. -/
theorem syncTarget_convergence {t : table} {S T : DB} (env : ExecEnv)
    {sc : Checksum} {sm : EntryMap}
    (hWFt : WFtable t) (hWFS : WFdb t S) (hWFT : WFdb t T)
    (hsc : sc = checksumData (getEntries t S).1) (hsm : sm = (getEntries t S).2)
    (hok : (syncTarget env t T sc sm).error = none) :
    ∀ k, dbFind t.primaryKeyIndices (syncTarget env t T sc sm).db k
      = dbFind t.primaryKeyIndices S k :=
  fun k =>
    dbFind_perm t.primaryKeyIndices
      (syncTarget_db_perm hWFt hWFS hWFT hsc hsm hok) hWFS.2.1 k

/-- Witness for C1 at the specification scenario: source
(1,Alice,30),(2,Bob,25),(3,Charlie,35) against target (1,Nick,31),(420,Azamat,69),
checked at the updated key 1, the inserted keys 2 and 3, and the deleted key 420. -/
theorem syncTarget_convergence_witness :
    (dbFind tEx.primaryKeyIndices
        (syncTarget {} tEx dbTargetEx (checksumData (getEntries tEx dbSourceEx).1)
          ((getEntries tEx dbSourceEx).2)).db (pkTupleOfRow tEx.primaryKeyIndices rowAlice)
      = dbFind tEx.primaryKeyIndices dbSourceEx (pkTupleOfRow tEx.primaryKeyIndices rowAlice))
    ∧ (dbFind tEx.primaryKeyIndices
        (syncTarget {} tEx dbTargetEx (checksumData (getEntries tEx dbSourceEx).1)
          ((getEntries tEx dbSourceEx).2)).db (pkTupleOfRow tEx.primaryKeyIndices rowBob)
      = dbFind tEx.primaryKeyIndices dbSourceEx (pkTupleOfRow tEx.primaryKeyIndices rowBob))
    ∧ (dbFind tEx.primaryKeyIndices
        (syncTarget {} tEx dbTargetEx (checksumData (getEntries tEx dbSourceEx).1)
          ((getEntries tEx dbSourceEx).2)).db (pkTupleOfRow tEx.primaryKeyIndices rowCharlie)
      = dbFind tEx.primaryKeyIndices dbSourceEx (pkTupleOfRow tEx.primaryKeyIndices rowCharlie))
    ∧ (dbFind tEx.primaryKeyIndices
        (syncTarget {} tEx dbTargetEx (checksumData (getEntries tEx dbSourceEx).1)
          ((getEntries tEx dbSourceEx).2)).db (pkTupleOfRow tEx.primaryKeyIndices rowAzamat)
      = dbFind tEx.primaryKeyIndices dbSourceEx (pkTupleOfRow tEx.primaryKeyIndices rowAzamat)) :=
  ⟨syncTarget_convergence {} (by decide) (by decide) (by decide) rfl rfl (by decide) _,
   syncTarget_convergence {} (by decide) (by decide) (by decide) rfl rfl (by decide) _,
   syncTarget_convergence {} (by decide) (by decide) (by decide) rfl rfl (by decide) _,
   syncTarget_convergence {} (by decide) (by decide) (by decide) rfl rfl (by decide) _⟩

/-- C3: Checksum short-circuit and no-op idempotence.  When the target's
computed checksum equals the source checksum, `syncTarget` returns that
checksum with `synced = false` and no error, executes no statement and leaves
the rows unchanged; and after one error-free pass, a second pass over the
resulting target reports `synced = false` with zero statements executed and an
unchanged table. -/
theorem syncTarget_checksum_short_circuit {t : table} {S T : DB} (env : ExecEnv)
    {sc : Checksum} {sm : EntryMap}
    (hWFt : WFtable t) (hWFS : WFdb t S) (hWFT : WFdb t T)
    (h1 : env.scanErr = none) (h2 : env.checksumErr = none)
    (hstmt : ∀ s, env.stmtErr s = none)
    (hsc : sc = checksumData (getEntries t S).1) (hsm : sm = (getEntries t S).2) :
    (sc = checksumData (getEntries t T).1 →
      syncTarget env t T sc sm = ⟨T, [], sc, false, none⟩)
    ∧ syncTarget env t (syncTarget env t T sc sm).db sc sm
        = ⟨(syncTarget env t T sc sm).db, [], sc, false, none⟩ := by
  constructor
  · intro hc
    exact syncTarget_checksum_eq h1 h2 hc
  · have hok : (syncTarget env t T sc sm).error = none := by
      by_cases hc : sc = checksumData (getEntries t T).1
      · rw [syncTarget_checksum_eq h1 h2 hc]
      · have hr2 : (runStmts env t.columns T (stmtsOf t sm T)).2.2 = none := by
          rw [runStmts_ok env t.columns hstmt T (stmtsOf t sm T)]
        rw [syncTarget_mut_ok h1 h2 hc hr2]
    have hperm := syncTarget_db_perm hWFt hWFS hWFT hsc hsm hok
    have hc2 : sc = checksumData (getEntries t (syncTarget env t T sc sm).db).1 := by
      rw [getEntries_fst, scanRows_congr t.primaryKeyIndices hperm, ← getEntries_fst]
      exact hsc
    exact syncTarget_checksum_eq h1 h2 hc2

/-- Witness for C3: a target already identical to the source short-circuits,
and the converged target of the scenario pass reports `synced = false` on the
second run. -/
theorem syncTarget_checksum_short_circuit_witness :
    (checksumData (getEntries tEx dbSourceEx).1 = checksumData (getEntries tEx dbSourceEx).1 →
      syncTarget {} tEx dbSourceEx (checksumData (getEntries tEx dbSourceEx).1)
          ((getEntries tEx dbSourceEx).2)
        = ⟨dbSourceEx, [], checksumData (getEntries tEx dbSourceEx).1, false, none⟩)
    ∧ syncTarget {} tEx
        (syncTarget {} tEx dbSourceEx (checksumData (getEntries tEx dbSourceEx).1)
          ((getEntries tEx dbSourceEx).2)).db
        (checksumData (getEntries tEx dbSourceEx).1) ((getEntries tEx dbSourceEx).2)
      = ⟨(syncTarget {} tEx dbSourceEx (checksumData (getEntries tEx dbSourceEx).1)
            ((getEntries tEx dbSourceEx).2)).db, [],
          checksumData (getEntries tEx dbSourceEx).1, false, none⟩ :=
  syncTarget_checksum_short_circuit {} (by decide) (by decide) (by decide) rfl rfl
    (fun _ => rfl) rfl rfl

/-- C4: Outcome reporting.  An error-free pass reports the target checksum
computed from the pre-mutation table state, and reports `synced = true`
exactly when at least one statement was executed. -/
theorem syncTarget_outcome_reporting {t : table} {S T : DB} (env : ExecEnv)
    {sc : Checksum} {sm : EntryMap}
    (hWFt : WFtable t) (hWFS : WFdb t S) (hWFT : WFdb t T)
    (h1 : env.scanErr = none) (h2 : env.checksumErr = none)
    (hstmt : ∀ s, env.stmtErr s = none)
    (hsc : sc = checksumData (getEntries t S).1) (hsm : sm = (getEntries t S).2) :
    (syncTarget env t T sc sm).error = none ∧
    (syncTarget env t T sc sm).checksum = checksumData (getEntries t T).1 ∧
    ((syncTarget env t T sc sm).synced = true ↔ (syncTarget env t T sc sm).executed ≠ []) := by
  by_cases hc : sc = checksumData (getEntries t T).1
  · rw [syncTarget_checksum_eq h1 h2 hc]
    refine ⟨rfl, hc, ?_⟩
    simp
  · have hr2 : (runStmts env t.columns T (stmtsOf t sm T)).2.2 = none := by
      rw [runStmts_ok env t.columns hstmt T (stmtsOf t sm T)]
    have hok : (syncTarget env t T sc sm).error = none := by
      rw [syncTarget_mut_ok h1 h2 hc hr2]
    have hperm := syncTarget_db_perm hWFt hWFS hWFT hsc hsm hok
    rw [syncTarget_mut_ok h1 h2 hc hr2] at hperm ⊢
    refine ⟨rfl, rfl, ?_⟩
    constructor
    · intro _ hnil
      have hTperm : List.Perm T S := by
        have h3 : List.Perm (applyAll t.columns T (stmtsOf t sm T)) S := hperm
        have hnil2 : stmtsOf t sm T = [] := hnil
        rw [hnil2] at h3
        exact h3
      have hscans := scanRows_congr t.primaryKeyIndices hTperm
      rw [hsc, getEntries_fst, getEntries_fst, ← hscans] at hc
      exact hc rfl
    · intro _
      rfl

/-- Witness for C4 at the specification scenario. -/
theorem syncTarget_outcome_reporting_witness :
    (syncTarget {} tEx dbTargetEx (checksumData (getEntries tEx dbSourceEx).1)
        ((getEntries tEx dbSourceEx).2)).error = none ∧
    (syncTarget {} tEx dbTargetEx (checksumData (getEntries tEx dbSourceEx).1)
        ((getEntries tEx dbSourceEx).2)).checksum
      = checksumData (getEntries tEx dbTargetEx).1 ∧
    ((syncTarget {} tEx dbTargetEx (checksumData (getEntries tEx dbSourceEx).1)
        ((getEntries tEx dbSourceEx).2)).synced = true ↔
      (syncTarget {} tEx dbTargetEx (checksumData (getEntries tEx dbSourceEx).1)
        ((getEntries tEx dbSourceEx).2)).executed ≠ []) :=
  syncTarget_outcome_reporting {} (by decide) (by decide) (by decide) rfl rfl
    (fun _ => rfl) rfl rfl

/-- C9: Error-result shape.  Whenever `syncTarget` reports an error — a failed
target scan, a failed checksum, or a failed DELETE/UPDATE/INSERT — the
returned checksum is the empty string and `synced` is false; in particular the
pre-mutation target checksum computed earlier in the pass is discarded. -/
theorem syncTarget_error_shape (env : ExecEnv) (t : table) (db : DB)
    (sc : Checksum) (sm : EntryMap) :
    ∀ e, (syncTarget env t db sc sm).error = some e →
      (syncTarget env t db sc sm).checksum = Checksum.empty ∧
      (syncTarget env t db sc sm).synced = false := by
  intro e he
  cases hscan : env.scanErr with
  | some e2 => rw [syncTarget_scanErr hscan]; exact ⟨rfl, rfl⟩
  | none =>
  cases hcs : env.checksumErr with
  | some e2 => rw [syncTarget_checksumErr hscan hcs]; exact ⟨rfl, rfl⟩
  | none =>
  by_cases hc : sc = checksumData (getEntries t db).1
  · rw [syncTarget_checksum_eq hscan hcs hc] at he
    simp at he
  · cases hrun : (runStmts env t.columns db (stmtsOf t sm db)).2.2 with
    | some e2 => rw [syncTarget_mut_err hscan hcs hc hrun]; exact ⟨rfl, rfl⟩
    | none =>
      rw [syncTarget_mut_ok hscan hcs hc hrun] at he
      simp at he

/-- Failing execution environment: the DELETE for key 420 is rejected. -/
def envFailEx : ExecEnv :=
  { stmtErr := fun s =>
      if s = Stmt.deleteStmt [("id", Value.vInt 420)] then some ⟨"exec failed"⟩ else none }

/-- Witness for C9: a statement-execution failure in the scenario pass yields
the empty checksum and `synced = false` even though the pre-mutation target
checksum had already been computed. -/
theorem syncTarget_error_shape_witness :
    (syncTarget envFailEx tEx dbTargetEx (checksumData (getEntries tEx dbSourceEx).1)
        ((getEntries tEx dbSourceEx).2)).checksum = Checksum.empty ∧
    (syncTarget envFailEx tEx dbTargetEx (checksumData (getEntries tEx dbSourceEx).1)
        ((getEntries tEx dbSourceEx).2)).synced = false :=
  syncTarget_error_shape envFailEx tEx dbTargetEx
    (checksumData (getEntries tEx dbSourceEx).1) ((getEntries tEx dbSourceEx).2)
    ⟨"exec failed"⟩ (by decide)

def rowOtherEx : Row := [Value.vInt 3, Value.vStr "X", Value.vInt 1]

/-- Target whose row for key 1 is positionally identical to the source's
(1, Alice, 30); the second row only makes the checksums differ. -/
def dbTargetEqRowEx : DB := [rowAlice, rowOtherEx]

/-- C2, evaluation at the failing input: key 1 is present in both the source
map and the target map with positionally equal rows, the checksums differ, yet
the pass still executes an UPDATE for key 1 — the source deletes the key from
the target map before the `reflect.DeepEqual` comparison, so the equal-row
skip can never fire. -/
theorem syncTarget_equal_row_update_executed :
    mapLookup (getEntries tEx dbSourceEx).2 (pkTupleOfRow [0] rowAlice) = some rowAlice ∧
    mapLookup (getEntries tEx dbTargetEqRowEx).2 (pkTupleOfRow [0] rowAlice) = some rowAlice ∧
    checksumData (getEntries tEx dbSourceEx).1
      ≠ checksumData (getEntries tEx dbTargetEqRowEx).1 ∧
    Stmt.updateStmt [("id", Value.vInt 1)]
        [("name", Value.vStr "Alice"), ("age", Value.vInt 30)]
      ∈ (syncTarget {} tEx dbTargetEqRowEx (checksumData (getEntries tEx dbSourceEx).1)
          ((getEntries tEx dbSourceEx).2)).executed := by
  decide

/-- C6: Ping timeout race.  If the caller-supplied timer fires strictly before
the underlying check delivers, the probe reports the timeout error whatever
the check would have returned (its result is discarded); if the check delivers
strictly first, the probe returns exactly the check's result. -/
theorem pingWithTimeout_race (timeout : Nat) (env : PingEnv) :
    (timeout < env.checkDuration → pingWithTimeout timeout env = some timeoutError)
    ∧ (env.checkDuration < timeout → pingWithTimeout timeout env = env.checkResult) := by
  constructor
  · intro h
    unfold pingWithTimeout
    rw [if_neg (by omega)]
  · intro h
    unfold pingWithTimeout
    rw [if_pos h]

/-- Witness for C6 at the specification scenario: a 100ms timeout against a
500ms check times out; a 30s timeout against the same check succeeds. -/
theorem pingWithTimeout_race_witness :
    pingWithTimeout 100 ⟨500, none⟩ = some timeoutError ∧
    pingWithTimeout 30000 ⟨500, none⟩ = none :=
  ⟨(pingWithTimeout_race 100 ⟨500, none⟩).1 (by decide),
   (pingWithTimeout_race 30000 ⟨500, none⟩).2 (by decide)⟩

/-- C7: RowSet consistency invariant.  When the scanned rows have pairwise
distinct primary-key tuples, `getEntries` returns an entry list in which every
row occurs exactly once, a map with exactly one entry per list row keyed by
that row's tuple, and looking up a list row's key yields that row. -/
theorem getEntries_rowset_invariant (t : table) (db : DB)
    (hnd : ((getEntries t db).1.map (pkTupleOfRow t.primaryKeyIndices)).Nodup) :
    (getEntries t db).2
        = (getEntries t db).1.map (fun r => (pkTupleOfRow t.primaryKeyIndices r, r))
    ∧ (getEntries t db).1.Nodup
    ∧ ∀ r ∈ (getEntries t db).1,
        mapLookup (getEntries t db).2 (pkTupleOfRow t.primaryKeyIndices r) = some r := by
  have hscan : (getEntries t db).1 = scanRows t.primaryKeyIndices db := getEntries_fst t db
  have hscannd : ((scanRows t.primaryKeyIndices db).map
      (pkTupleOfRow t.primaryKeyIndices)).Nodup := by
    rw [← hscan]
    exact hnd
  have hdbnd : (db.map (pkTupleOfRow t.primaryKeyIndices)).Nodup :=
    hscannd.perm ((scanRows_perm t.primaryKeyIndices db).map (pkTupleOfRow t.primaryKeyIndices))
  refine ⟨?_, ?_, ?_⟩
  · rw [getEntries_snd t db hdbnd, hscan]
  · rw [hscan]
    exact List.Nodup.of_map _ hscannd
  · intro r hr
    rw [getEntries_snd t db hdbnd, mapLookup_map_pair]
    rw [hscan] at hr
    exact dbFind_self t.primaryKeyIndices hscannd hr

/-- Witness for C7 at the scenario source table. -/
theorem getEntries_rowset_invariant_witness :
    (getEntries tEx dbSourceEx).2
        = (getEntries tEx dbSourceEx).1.map
            (fun r => (pkTupleOfRow tEx.primaryKeyIndices r, r))
    ∧ (getEntries tEx dbSourceEx).1.Nodup
    ∧ ∀ r ∈ (getEntries tEx dbSourceEx).1,
        mapLookup (getEntries tEx dbSourceEx).2 (pkTupleOfRow tEx.primaryKeyIndices r)
          = some r :=
  getEntries_rowset_invariant tEx dbSourceEx (by decide)

theorem whereClauseAux_ge3 (key : primaryKeyTuple) (cols : List String) :
    ∀ (rest : List Nat) (i : Nat) (w : List (String × Value)), 3 ≤ i →
      whereClauseAux key cols i rest w = w := by
  intro rest
  induction rest with
  | nil => intro i w _; rfl
  | cons idx rest2 ih =>
    intro i w h3
    obtain ⟨j, rfl⟩ : ∃ j, i = j + 3 := ⟨i - 3, by omega⟩
    show whereClauseAux key cols (j + 3 + 1) rest2 w = w
    exact ih (j + 3 + 1) w (by omega)

theorem whereClause_drop (key : primaryKeyTuple) (cols : List String) (a b c : Nat)
    (rest : List Nat) :
    whereClause key cols (a :: b :: c :: rest) = whereClause key cols [a, b, c] := by
  show whereClauseAux key cols 3 rest
      (eqInsert (eqInsert (eqInsert [] (cols.getD a "") key.First)
        (cols.getD b "") key.Second) (cols.getD c "") key.Third) = _
  rw [whereClauseAux_ge3 key cols rest 3 _ (by omega)]
  rfl

/-- C8: Fixed-arity truncation of `whereClause`.  The equality map contains
exactly one entry per index for the first three primary-key indices, mapping
the column at that index to the tuple component at the same position (First,
Second, Third); indices past the third are silently dropped rather than an
error being raised. -/
theorem whereClause_fixed_arity (key : primaryKeyTuple) (cols : List String)
    (pkIdx : List Nat)
    (hnd : ((pkIdx.take 3).map (fun idx => cols.getD idx "")).Nodup) :
    whereClause key cols pkIdx =
      ((pkIdx.take 3).zip [key.First, key.Second, key.Third]).map
        (fun p => (cols.getD p.1 "", p.2)) := by
  have hthree : ∀ a b c : Nat,
      ((([a, b, c] : List Nat).take 3).map (fun idx => cols.getD idx "")).Nodup →
      whereClause key cols [a, b, c] =
        ((([a, b, c] : List Nat).take 3).zip [key.First, key.Second, key.Third]).map
          (fun p => (cols.getD p.1 "", p.2)) := by
    intro a b c hnd3
    simp only [List.take, List.map_cons, List.map_nil, List.nodup_cons, List.mem_cons,
      List.mem_singleton, List.not_mem_nil] at hnd3
    have hab : cols.getD a "" ≠ cols.getD b "" := fun h => hnd3.1 (Or.inl h)
    have hac : cols.getD a "" ≠ cols.getD c "" := fun h => hnd3.1 (Or.inr (Or.inl h))
    have hbc : cols.getD b "" ≠ cols.getD c "" := fun h => hnd3.2.1 (Or.inl h)
    rw [whereClause_three key cols a b c hab hac hbc]
    rfl
  match pkIdx with
  | [] => rfl
  | [a] => rfl
  | [a, b] =>
    simp only [List.take, List.map_cons, List.map_nil, List.nodup_cons,
      List.mem_singleton, List.not_mem_nil] at hnd
    rw [whereClause_two key cols a b (by simpa using hnd.1)]
    rfl
  | [a, b, c] => exact hthree a b c hnd
  | a :: b :: c :: d :: rest =>
    rw [whereClause_drop key cols a b c (d :: rest)]
    have htake : ((a :: b :: c :: d :: rest).take 3 : List Nat) = [a, b, c] := rfl
    rw [htake]
    exact hthree a b c (htake ▸ hnd)

/-- Witness for C8: a four-component index list is truncated to the first
three WHERE entries without error. -/
theorem whereClause_fixed_arity_witness :
    whereClause ⟨Value.vInt 1, Value.vInt 2, Value.vInt 3⟩ ["a", "b", "c", "d"] [0, 1, 2, 3] =
      ((([0, 1, 2, 3] : List Nat).take 3).zip
          [Value.vInt 1, Value.vInt 2, Value.vInt 3]).map
        (fun p => ((["a", "b", "c", "d"] : List String).getD p.1 "", p.2)) :=
  whereClause_fixed_arity ⟨Value.vInt 1, Value.vInt 2, Value.vInt 3⟩
    ["a", "b", "c", "d"] [0, 1, 2, 3] (by decide)

theorem gpk_subset_aux (cols : List String) :
    ∀ pks : List String, (∀ pk ∈ pks, pk ∈ cols) →
      (getPrimaryKeyIndices cols pks).length = pks.length ∧
      ∀ i, i < pks.length →
        cols.getD ((getPrimaryKeyIndices cols pks).getD i 0) "" = pks.getD i "" := by
  intro pks
  induction pks with
  | nil =>
    intro _
    exact ⟨rfl, fun i hi => absurd hi (by simp)⟩
  | cons pk rest ih =>
    intro hsub
    have hpkc : pk ∈ cols := hsub pk (List.mem_cons_self pk rest)
    obtain ⟨j, hj⟩ : ∃ j, lastIdxOf cols pk = some j := by
      cases hl : lastIdxOf cols pk with
      | none => exact absurd hpkc (lastIdxOf_eq_none_iff.mp hl)
      | some j => exact ⟨j, rfl⟩
    have hrest := ih (fun q hq => hsub q (List.mem_cons_of_mem pk hq))
    constructor
    · rw [gpk_eq_filterMap, List.filterMap_cons, hj]
      rw [gpk_eq_filterMap] at hrest
      simp [hrest.1]
    · intro i hi
      rw [gpk_eq_filterMap, List.filterMap_cons, hj]
      match i with
      | 0 =>
        simp only [List.getD_cons_zero]
        exact (lastIdxOf_spec hj).2
      | i + 1 =>
        simp only [List.getD_cons_succ]
        have := hrest.2 i (Nat.lt_of_succ_lt_succ hi)
        rw [gpk_eq_filterMap] at this
        exact this

/-- C10: Primary-key index resolution.  `getPrimaryKeyIndices` silently omits
primary keys that do not occur in the column list (restricting to the keys
that do occur changes nothing), and under the validated precondition that the
primary keys are a subset of the columns it returns exactly one index per
primary key, in declaration order, with the column at each returned index
equal to the corresponding primary key. -/
theorem getPrimaryKeyIndices_resolution (cols pks : List String) :
    getPrimaryKeyIndices cols (pks.filter (fun pk => decide (pk ∈ cols)))
        = getPrimaryKeyIndices cols pks
    ∧ ((∀ pk ∈ pks, pk ∈ cols) →
        (getPrimaryKeyIndices cols pks).length = pks.length ∧
        ∀ i, i < pks.length →
          cols.getD ((getPrimaryKeyIndices cols pks).getD i 0) "" = pks.getD i "") := by
  constructor
  · rw [gpk_eq_filterMap, gpk_eq_filterMap]
    induction pks with
    | nil => rfl
    | cons pk rest ih =>
      by_cases h : pk ∈ cols
      · rw [List.filter_cons_of_pos (by simp [h]), List.filterMap_cons, List.filterMap_cons]
        cases hl : lastIdxOf cols pk with
        | some i => rw [ih]
        | none => rw [ih]
      · have hl : lastIdxOf cols pk = none := lastIdxOf_eq_none_iff.mpr h
        rw [List.filter_cons_of_neg (by simp [h]), List.filterMap_cons, hl, ih]
  · exact gpk_subset_aux cols pks

/-- Witness for C10: a key list with one absent name is silently truncated,
and the subset case resolves positionally. -/
theorem getPrimaryKeyIndices_resolution_witness :
    (getPrimaryKeyIndices ["id", "name", "age"]
        ((["id", "age"] : List String).filter
          (fun pk => decide (pk ∈ (["id", "name", "age"] : List String))))
      = getPrimaryKeyIndices ["id", "name", "age"] ["id", "age"])
    ∧ ((getPrimaryKeyIndices ["id", "name", "age"] ["id", "age"]).length = 2 ∧
       ∀ i, i < (["id", "age"] : List String).length →
         (["id", "name", "age"] : List String).getD
             ((getPrimaryKeyIndices ["id", "name", "age"] ["id", "age"]).getD i 0) ""
           = (["id", "age"] : List String).getD i "") :=
  ⟨(getPrimaryKeyIndices_resolution ["id", "name", "age"] ["id", "age"]).1,
   (getPrimaryKeyIndices_resolution ["id", "name", "age"] ["id", "age"]).2 (by decide)⟩

theorem getD_eq_getElem {α : Type} (l : List α) (i : Nat) (d : α) (h : i < l.length) :
    l.getD i d = l[i] := by
  rw [List.getD_eq_getElem?_getD, List.getElem?_eq_getElem h]
  rfl

/-- C5: Error propagation split in `syncTargets`.  Source-side failures
(source connect, source scan, source checksum) abort the whole job with a
non-nil top-level error, empty results and untouched targets; otherwise the
top-level error is nil, exactly one result is produced per target in order,
and each target's own failure (connect or reconciliation) is carried inside
that result's `Error` field. -/
theorem syncTargets_error_split (job : JobConfig) (senv : SourceEnv) (sourceDb : DB)
    (targets : List TargetState) (hlen : targets.length = job.Targets.length) :
    (∀ e, senv.connectErr = some e →
      syncTargets job senv sourceDb targets
        = ⟨Checksum.empty, [], targets.map TargetState.db, some e⟩)
    ∧ (∀ e, senv.connectErr = none → senv.scanErr = some e →
      syncTargets job senv sourceDb targets
        = ⟨Checksum.empty, [], targets.map TargetState.db, some e⟩)
    ∧ (∀ e, senv.connectErr = none → senv.scanErr = none → senv.checksumErr = some e →
      syncTargets job senv sourceDb targets
        = ⟨Checksum.empty, [], targets.map TargetState.db, some e⟩)
    ∧ (senv.connectErr = none → senv.scanErr = none → senv.checksumErr = none →
      (syncTargets job senv sourceDb targets).error = none ∧
      (syncTargets job senv sourceDb targets).results.length = job.Targets.length ∧
      ∀ i, i < job.Targets.length →
        ((syncTargets job senv sourceDb targets).results.getD i default).Target
            = job.Targets.getD i {} ∧
        ((syncTargets job senv sourceDb targets).results.getD i default).Error
          = match (targets.getD i default).connectErr with
            | some e => some e
            | none =>
              (syncTarget (targets.getD i default).env
                ⟨job.Columns, job.PrimaryKeys,
                  getPrimaryKeyIndices job.Columns job.PrimaryKeys⟩
                (targets.getD i default).db
                (checksumData (getEntries ⟨job.Columns, job.PrimaryKeys,
                  getPrimaryKeyIndices job.Columns job.PrimaryKeys⟩ sourceDb).1)
                (getEntries ⟨job.Columns, job.PrimaryKeys,
                  getPrimaryKeyIndices job.Columns job.PrimaryKeys⟩ sourceDb).2).error) := by
  obtain ⟨sconn, sscan, schk⟩ := senv
  refine ⟨?_, ?_, ?_, ?_⟩
  · intro e h
    have hx : sconn = some e := h
    subst hx
    rfl
  · intro e h1 h2
    have h1x : sconn = none := h1
    have h2x : sscan = some e := h2
    subst h1x
    subst h2x
    rfl
  · intro e h1 h2 h3
    have h1x : sconn = none := h1
    have h2x : sscan = none := h2
    have h3x : schk = some e := h3
    subst h1x
    subst h2x
    subst h3x
    rfl
  · intro h1 h2 h3
    have h1x : sconn = none := h1
    have h2x : sscan = none := h2
    have h3x : schk = none := h3
    subst h1x
    subst h2x
    subst h3x
    refine ⟨rfl, ?_, ?_⟩
    · show ((job.Targets.zip targets).map _ |>.map Prod.fst).length = job.Targets.length
      rw [List.length_map, List.length_map, List.length_zip, hlen, Nat.min_self]
    · intro i hi
      have hizip : i < (job.Targets.zip targets).length := by
        rw [List.length_zip, hlen, Nat.min_self]
        exact hi
      have himap : i < ((job.Targets.zip targets).map
          (fun p => runOneTarget
            ⟨job.Columns, job.PrimaryKeys, getPrimaryKeyIndices job.Columns job.PrimaryKeys⟩
            (checksumData (getEntries ⟨job.Columns, job.PrimaryKeys,
              getPrimaryKeyIndices job.Columns job.PrimaryKeys⟩ sourceDb).1)
            (getEntries ⟨job.Columns, job.PrimaryKeys,
              getPrimaryKeyIndices job.Columns job.PrimaryKeys⟩ sourceDb).2 p.1 p.2)).length
          := by
        rw [List.length_map]
        exact hizip
      have hires : i < (((job.Targets.zip targets).map
          (fun p => runOneTarget
            ⟨job.Columns, job.PrimaryKeys, getPrimaryKeyIndices job.Columns job.PrimaryKeys⟩
            (checksumData (getEntries ⟨job.Columns, job.PrimaryKeys,
              getPrimaryKeyIndices job.Columns job.PrimaryKeys⟩ sourceDb).1)
            (getEntries ⟨job.Columns, job.PrimaryKeys,
              getPrimaryKeyIndices job.Columns job.PrimaryKeys⟩ sourceDb).2 p.1 p.2)).map
            Prod.fst).length := by
        rw [List.length_map]
        exact himap
      have hgetd : ∀ {α : Type} (l : List α) (d : α) (hl : i < l.length),
          l.getD i d = l[i] := fun l d hl => getD_eq_getElem l i d hl
      rw [show ((syncTargets job ⟨none, none, none⟩ sourceDb targets).results : List SyncResult)
          = ((job.Targets.zip targets).map
            (fun p => runOneTarget
              ⟨job.Columns, job.PrimaryKeys, getPrimaryKeyIndices job.Columns job.PrimaryKeys⟩
              (checksumData (getEntries ⟨job.Columns, job.PrimaryKeys,
                getPrimaryKeyIndices job.Columns job.PrimaryKeys⟩ sourceDb).1)
              (getEntries ⟨job.Columns, job.PrimaryKeys,
                getPrimaryKeyIndices job.Columns job.PrimaryKeys⟩ sourceDb).2 p.1 p.2)).map
              Prod.fst from rfl]
      rw [hgetd _ default hires]
      rw [List.getElem_map, List.getElem_map, List.getElem_zip]
      rw [hgetd job.Targets {} hi, hgetd targets default (by rw [hlen]; exact hi)]
      cases hconn : targets[i].connectErr with
      | some e =>
        constructor
        · show (runOneTarget _ _ _ job.Targets[i] targets[i]).1.Target = job.Targets[i]
          unfold runOneTarget
          rw [hconn]
        · show (runOneTarget _ _ _ job.Targets[i] targets[i]).1.Error = _
          unfold runOneTarget
          rw [hconn]
      | none =>
        constructor
        · show (runOneTarget _ _ _ job.Targets[i] targets[i]).1.Target = job.Targets[i]
          unfold runOneTarget
          rw [hconn]
        · show (runOneTarget _ _ _ job.Targets[i] targets[i]).1.Error = _
          unfold runOneTarget
          rw [hconn]

def jobEx : JobConfig :=
  ⟨["id", "name", "age"], ["id"], ⟨"src", "users"⟩, [⟨"t1", "users"⟩, ⟨"t2", "users"⟩]⟩

/-- Two targets: the first fails to connect, the second is healthy. -/
def tstatesEx : List TargetState :=
  [{ connectErr := some ⟨"connection refused"⟩ }, { db := dbTargetEx }]

/-- Witness for C5: with a healthy source, a job over one unreachable and one
healthy target reports no top-level error, one result per target, and carries
the connect failure inside the first target's result. -/
theorem syncTargets_error_split_witness :
    (syncTargets jobEx ⟨none, none, none⟩ dbSourceEx tstatesEx).error = none ∧
    (syncTargets jobEx ⟨none, none, none⟩ dbSourceEx tstatesEx).results.length
        = jobEx.Targets.length ∧
    ∀ i, i < jobEx.Targets.length →
      ((syncTargets jobEx ⟨none, none, none⟩ dbSourceEx tstatesEx).results.getD i
          default).Target = jobEx.Targets.getD i {} ∧
      ((syncTargets jobEx ⟨none, none, none⟩ dbSourceEx tstatesEx).results.getD i
          default).Error
        = match (tstatesEx.getD i default).connectErr with
          | some e => some e
          | none =>
            (syncTarget (tstatesEx.getD i default).env
              ⟨jobEx.Columns, jobEx.PrimaryKeys,
                getPrimaryKeyIndices jobEx.Columns jobEx.PrimaryKeys⟩
              (tstatesEx.getD i default).db
              (checksumData (getEntries ⟨jobEx.Columns, jobEx.PrimaryKeys,
                getPrimaryKeyIndices jobEx.Columns jobEx.PrimaryKeys⟩ dbSourceEx).1)
              (getEntries ⟨jobEx.Columns, jobEx.PrimaryKeys,
                getPrimaryKeyIndices jobEx.Columns jobEx.PrimaryKeys⟩ dbSourceEx).2).error :=
  (syncTargets_error_split jobEx ⟨none, none, none⟩ dbSourceEx tstatesEx (by decide)).2.2.2
    rfl rfl rfl

end SqlTableSync
